import Mathlib

/-!
# go-crawlb: cache store, cache entries, access gate and CSV scanner

A shallow embedding of `cache/cache.go`, `mutex/mutex.go` and `tools.go`.
Stateful Go code is rendered by explicit state passing: every operation takes the
receiver and the disk and returns the new receiver, the new disk and the Go result.
Clock readings and the outcomes of system calls are inputs. Library code that the
package calls (`os`, `path`, `strconv`, `encoding/json`, `encoding/base64`, `go-jsonb`) is
modelled next to the code that calls it; `md5.Sum` is a parameter.
-/

namespace Crawlb

/-! ## Errors and results -/

/-- Go error values that the modelled code can produce or receive. -/
inductive Err where
  | errno (name : String)
  | pathError (op : String) (path : List String) (inner : Err)
  | noSuchTx
  | wrapf (msg : String) (inner : Err)
  | eof
  | notify (msg : String)
  | other (msg : String)
  deriving DecidableEq, Repr

/-- The errno `syscall.ENOENT`. -/
def ENOENT : Err := Err.errno "ENOENT"

/-- The package variable `errNoSuchTx = errors.New("no such transaction")`. -/
def errNoSuchTx : Err := Err.noSuchTx

/-- The function `errors.Unwrap`: one step down the wrapping chain. -/
def Err.unwrap : Err → Option Err
  | Err.pathError _ _ inner => some inner
  | Err.wrapf _ inner => some inner
  | _ => none

/-- The function `errors.Is`: the target occurs somewhere on the wrapping chain. -/
def Err.is : Err → Err → Bool
  | Err.pathError op p inner, target =>
      decide (Err.pathError op p inner = target) || Err.is inner target
  | Err.wrapf msg inner, target =>
      decide (Err.wrapf msg inner = target) || Err.is inner target
  | e, target => decide (e = target)

/-- How a Go call can fail: it returns a non-nil error, or it stops with a run-time fault
(index out of range, unlock of an unlocked mutex). -/
inductive Fail where
  | error (e : Err)
  | crash (what : String)
  deriving DecidableEq, Repr

/-- The result of a Go call that returns `(value, error)`. -/
abbrev Result (α : Type) := Except Fail α

/-- Results can be compared when errors and values can. -/
instance decEqExcept {ε α : Type} [DecidableEq ε] [DecidableEq α] : DecidableEq (Except ε α)
  | Except.ok a, Except.ok b =>
    if h : a = b then isTrue (by rw [h]) else isFalse (fun h2 => h (Except.ok.inj h2))
  | Except.error a, Except.error b =>
    if h : a = b then isTrue (by rw [h]) else isFalse (fun h2 => h (Except.error.inj h2))
  | Except.ok _, Except.error _ => isFalse (fun h => Except.noConfusion h)
  | Except.error _, Except.ok _ => isFalse (fun h => Except.noConfusion h)

/-! ## The disk -/

/-- A cleaned slash-separated path, as its list of components. -/
abbrev Path := List String

/-- The call `path.Join(dir, name)` for a single-component `name`. -/
def pathJoin (dir : Path) (name : String) : Path := dir ++ [name]

/-- The body of a control file: the `transactions` array, one `(name, create_at)` pair
per transaction. -/
abbrev CtlRecord := List (String × String)

/-- The part of the file system the cache store touches: the directories that exist, the
JSON control files, and for each system call the paths on which it fails. -/
structure Disk where
  dirs : List Path
  files : Path → Option CtlRecord
  mkdirFault : Path → Option Err
  removeFault : Path → Option Err
  saveFault : Path → Option Err
  loadFault : Path → Option Err

/-- Whether `p` is a directory; the empty path is the working directory. -/
def Disk.isDir (d : Disk) (p : Path) : Bool := p == [] || d.dirs.contains p

/-- The call `os.MkdirAll(p, 0755)`: creates `p` and every missing parent. When `p` or one
of its parents is a regular file the error names that file. -/
def MkdirAll (d : Disk) (p : Path) : Disk × Option Err :=
  match d.mkdirFault p with
  | some e => (d, some e)
  | none =>
    match p.inits.reverse.find? fun q => (d.files q).isSome with
    | some q => (d, some (Err.pathError "mkdir" q (Err.errno "ENOTDIR")))
    | none =>
      ({ d with dirs := (p.inits.filter fun q => q != [] && !d.dirs.contains q) ++ d.dirs }, none)

/-- The call `os.RemoveAll(p)`: removes `p` and everything below it; a path that does not
exist is not an error. -/
def RemoveAll (d : Disk) (p : Path) : Disk × Option Err :=
  match d.removeFault p with
  | some e => (d, some e)
  | none =>
    ({ d with
        dirs := d.dirs.filter fun q => !p.isPrefixOf q
        files := fun q => if p.isPrefixOf q then none else d.files q }, none)

/-- Whether a parent of `p` is a regular file, so that opening `p` gives `ENOTDIR`. -/
def Disk.belowFile (d : Disk) (p : Path) : Bool := p.dropLast.inits.any fun q => (d.files q).isSome

/-- The call `jsonb.Save(p, c)` of the go-jsonb library: creates or truncates the file `p`
and writes the JSON form of the cache, which is its `transactions` array. -/
def jsonbSave (d : Disk) (p : Path) (rec : CtlRecord) : Disk × Option Err :=
  match d.saveFault p with
  | some e => (d, some e)
  | none =>
    if d.isDir p.dropLast && !d.dirs.contains p
    then ({ d with files := fun q => if q = p then some rec else d.files q }, none)
    else if d.belowFile p then (d, some (Err.pathError "open" p (Err.errno "ENOTDIR")))
    else if d.dirs.contains p then (d, some (Err.pathError "open" p (Err.errno "EISDIR")))
    else (d, some (Err.pathError "open" p ENOENT))

/-- The call `jsonb.Load(p, c)` of the go-jsonb library: reads the file `p`. A missing file
is reported as a path error that wraps `ENOENT`; a path below a regular file gives
`ENOTDIR`, and a directory cannot be read. -/
def jsonbLoad (d : Disk) (p : Path) : Except Err CtlRecord :=
  match d.loadFault p with
  | some e => Except.error e
  | none =>
    if d.belowFile p then Except.error (Err.pathError "open" p (Err.errno "ENOTDIR"))
    else if d.dirs.contains p then Except.error (Err.pathError "read" p (Err.errno "EISDIR"))
    else
      match d.files p with
      | some rec => Except.ok rec
      | none => Except.error (Err.pathError "open" p ENOENT)

/-! ## `cache.Cache` and `cache.Tx` -/

/-- The struct `Tx`. -/
structure Tx where
  Name : String
  CreateAt : String
  dir : Path
  deriving DecidableEq, Repr

/-- The struct `Cache`. -/
structure Cache where
  dir : Path
  numTx : Int
  Trans : List Tx
  deriving DecidableEq, Repr

/-- The constant `ctlname`. -/
def ctlname : String := "cache.json"

/-- The JSON form of a cache: only the exported fields of each transaction. -/
def Cache.toRecord (c : Cache) : CtlRecord := c.Trans.map fun t => (t.Name, t.CreateAt)

/-- One hexadecimal digit, lower case. -/
def hexDigit (d : Nat) : Char := if d < 10 then Char.ofNat (48 + d) else Char.ofNat (87 + d)

/-- Hexadecimal digits of `n`, most significant first, pushed in front of `acc`. -/
def hexDigitsAux : Nat → Nat → List Char → List Char
  | 0, _, acc => acc
  | fuel + 1, n, acc =>
    if n / 16 = 0 then hexDigit (n % 16) :: acc
    else hexDigitsAux fuel (n / 16) (hexDigit (n % 16) :: acc)

/-- The call `strconv.FormatInt(x, 16)`. -/
def FormatInt16 (x : Int) : String :=
  match x with
  | Int.ofNat n => String.mk (hexDigitsAux (n + 1) n [])
  | Int.negSucc n => String.mk ('-' :: hexDigitsAux (n + 2) (n + 1) [])

/-- The function `newTx`; `stamp` is the formatted `time.Now()` it reads. -/
def newTx (d : Disk) (dir : Path) (name stamp : String) : Disk × Except Err Tx :=
  match MkdirAll d (pathJoin dir name) with
  | (d1, some e) => (d1, Except.error e)
  | (d1, none) => (d1, Except.ok { Name := name, CreateAt := stamp, dir := pathJoin dir name })

/-- The loop of `discard`: `os.RemoveAll` on each transaction in turn, stopping at the first
failure. -/
def removeEach : Disk → List Tx → Disk × Option Err
  | d, [] => (d, none)
  | d, t :: ts =>
    match RemoveAll d t.dir with
    | (d1, some e) => (d1, some e)
    | (d1, none) => removeEach d1 ts

/-- The method `Cache.discard`. A negative `numTx` makes the loop index `c.Trans[numTx]`. -/
def Cache.discard (c : Cache) (d : Disk) : Cache × Disk × Result Unit :=
  if (c.Trans.length : Int) ≤ c.numTx then (c, d, Except.ok ())
  else if c.numTx < 0 then (c, d, Except.error (Fail.crash "index out of range"))
  else
    match removeEach d (c.Trans.drop c.numTx.toNat) with
    | (d1, some e) => (c, d1, Except.error (Fail.error e))
    | (d1, none) => ({ c with Trans := c.Trans.take c.numTx.toNat }, d1, Except.ok ())

/-- The method `Cache.loadCtlFile`. -/
def Cache.loadCtlFile (c : Cache) (d : Disk) : Cache × Option Err :=
  match jsonbLoad d (pathJoin c.dir ctlname) with
  | Except.error e => (c, some e)
  | Except.ok rec =>
    ({ c with Trans := rec.map fun r =>
        { Name := r.1, CreateAt := r.2, dir := pathJoin c.dir r.1 } }, none)

/-- The method `Cache.saveCtlFile`. -/
def Cache.saveCtlFile (c : Cache) (d : Disk) : Disk × Option Err :=
  jsonbSave d (pathJoin c.dir ctlname) c.toRecord

/-- The function `New`. -/
def New (d : Disk) (dir : Path) (numTx : Int) : Disk × Result Cache :=
  let c0 : Cache := { dir := dir, numTx := numTx, Trans := [] }
  let (c1, err) := c0.loadCtlFile d
  if err.isSome && decide (err.bind Err.unwrap ≠ some ENOENT) then
    (d, Except.error (Fail.error (err.getD ENOENT)))
  else
    match c1.discard d with
    | (_, d2, Except.error f) => (d2, Except.error f)
    | (c2, d2, Except.ok _) => (d2, Except.ok c2)

/-- The statement `copy(s[1:], s[:len(s)])`: the elements move one place to the right. -/
def copyShift (s : List Tx) : List Tx :=
  match s with
  | [] => []
  | x :: _ => x :: s.take (s.length - 1)

/-- The three statements of `NewTransaction` that put `newtx` in front of `c.Trans`. -/
def insertFront (trans : List Tx) (zero newtx : Tx) : List Tx :=
  (copyShift (trans ++ [zero])).set 0 newtx

/-- The method `Cache.NewTransaction`; `nowMs` is `time.Now().UnixMilli()` and `stamp` the
formatted `time.Now()` of `newTx`. -/
def Cache.NewTransaction (c : Cache) (d : Disk) (nowMs : Int) (stamp : String) :
    Cache × Disk × Result Tx :=
  let zero : Tx := { Name := "", CreateAt := "", dir := [] }
  let name := FormatInt16 nowMs
  match newTx d c.dir name stamp with
  | (d1, Except.error e) => (c, d1, Except.error (Fail.error e))
  | (d1, Except.ok newtx) =>
    let c1 : Cache := { c with Trans := insertFront c.Trans zero newtx }
    match c1.discard d1 with
    | (c2, d2, Except.error f) => (c2, d2, Except.error f)
    | (c2, d2, Except.ok _) =>
      match c2.saveCtlFile d2 with
      | (d3, some e) => (c2, d3, Except.error (Fail.error e))
      | (d3, none) => (c2, d3, Except.ok newtx)

/-- The method `Cache.GetLastTransaction`: the result of `NewTransaction` is dropped, then
`c.Trans[0]` is indexed. -/
def Cache.GetLastTransaction (c : Cache) (d : Disk) (nowMs : Int) (stamp : String) :
    Cache × Disk × Result Tx :=
  let (c1, d1) :=
    if c.Trans.length = 0 then
      let r := c.NewTransaction d nowMs stamp
      (r.1, r.2.1)
    else (c, d)
  match c1.Trans with
  | [] => (c1, d1, Except.error (Fail.crash "index out of range"))
  | t :: _ => (c1, d1, Except.ok t)

/-- The loop of `GetTransaction`. -/
def findTx (name : String) : List Tx → Option Tx
  | [] => none
  | t :: ts => if t.Name = name then some t else findTx name ts

/-- The method `Cache.GetTransaction`. -/
def Cache.GetTransaction (c : Cache) (name : String) : Cache × Result Tx :=
  match findTx name c.Trans with
  | some t => (c, Except.ok t)
  | none => (c, Except.error (Fail.error (Err.wrapf ("get transaction " ++ name.quote) errNoSuchTx)))

/-- A run of `NewTransaction` calls, one per clock reading, that stops at the first call
that fails. -/
def runNew : Cache → Disk → List (Int × String) → Cache × Disk × Result Unit
  | c, d, [] => (c, d, Except.ok ())
  | c, d, (ms, stamp) :: rest =>
    match c.NewTransaction d ms stamp with
    | (c1, d1, Except.error f) => (c1, d1, Except.error f)
    | (c1, d1, Except.ok _) => runNew c1 d1 rest

/-- A disk on which no system call is made to fail. -/
def Disk.plain (dirs : List Path) (files : Path → Option CtlRecord) : Disk :=
  { dirs := dirs, files := files, mkdirFault := fun _ => none, removeFault := fun _ => none,
    saveFault := fun _ => none, loadFault := fun _ => none }


/-! ## Reading hexadecimal names back -/

/-- Value of a hexadecimal digit character. -/
def hexVal (c : Char) : Nat := if c.toNat < 58 then c.toNat - 48 else c.toNat - 87

/-- Value of a string of hexadecimal digits, most significant first. -/
def parseHex (l : List Char) : Nat := l.foldl (fun a c => 16 * a + hexVal c) 0

/-- Reads back what `FormatInt16` prints. -/
def parseInt16 (s : String) : Int :=
  match s.data with
  | '-' :: tl => - (parseHex tl : Int)
  | l => (parseHex l : Int)

/-! ## Statement of the retention property -/

/-- The transaction that `NewTransaction` creates under `dir` from the clock reading `r`. -/
def mkTx (dir : Path) (r : Int × String) : Tx :=
  { Name := FormatInt16 r.1, CreateAt := r.2, dir := pathJoin dir (FormatInt16 r.1) }

/-- Retention after a run of `NewTransaction` calls with clock readings `clk` on an empty
cache with retention count `N`: if every call succeeds, the sequence holds the `N` newest
transactions newest first, the control file lists them in that order, their directories
exist and the directories of the evicted ones are gone. -/
def RetentionHolds (dir : Path) (N : Nat) (clk : List (Int × String)) (d0 : Disk) : Prop :=
  (runNew { dir := dir, numTx := N, Trans := [] } d0 clk).2.2 = Except.ok () →
    (runNew { dir := dir, numTx := N, Trans := [] } d0 clk).1.Trans
        = (clk.reverse.take N).map (mkTx dir)
    ∧ (runNew { dir := dir, numTx := N, Trans := [] } d0 clk).1.Trans.length = N
    ∧ (runNew { dir := dir, numTx := N, Trans := [] } d0 clk).2.1.files (pathJoin dir ctlname)
        = some ((clk.reverse.take N).map fun r => (FormatInt16 r.1, r.2))
    ∧ (∀ r ∈ clk.reverse.take N,
        (mkTx dir r).dir ∈ (runNew { dir := dir, numTx := N, Trans := [] } d0 clk).2.1.dirs)
    ∧ (∀ r ∈ clk.reverse.drop N,
        (mkTx dir r).dir ∉ (runNew { dir := dir, numTx := N, Trans := [] } d0 clk).2.1.dirs)

/-- No transaction that is retained was created in the same millisecond as one that is
evicted: the clock readings of the `N` last calls differ from those of the earlier calls. -/
def RetainedApart (N : Nat) (clk : List (Int × String)) : Prop :=
  ∀ r ∈ clk.reverse.take N, ∀ e ∈ clk.reverse.drop N, r.1 ≠ e.1

/-- The state reached after the calls with the clock readings `pre`, in a run of calls with
the readings `clk`, on a cache at `dir` with retention count `N`: the sequence is the `N`
newest of `pre`; the directory of every transaction that the whole run retains exists once
it is created; the directory of a transaction whose millisecond is not among the `N`
newest of `pre` is gone. -/
def RetInv (dir : Path) (N : Nat) (clk pre : List (Int × String)) (c : Cache) (d : Disk) :
    Prop :=
  c.dir = dir ∧ c.numTx = (N : Int)
    ∧ c.Trans = (pre.reverse.take N).map (mkTx dir)
    ∧ (∀ r ∈ clk.reverse.take N, r ∈ pre → (mkTx dir r).dir ∈ d.dirs)
    ∧ (∀ e ∈ pre, (∀ r ∈ pre.reverse.take N, r.1 ≠ e.1) → (mkTx dir e).dir ∉ d.dirs)
    ∧ (pre ≠ [] → d.files (pathJoin dir ctlname)
        = some ((pre.reverse.take N).map fun r => (FormatInt16 r.1, r.2)))

/-! ## Concrete disks -/

/-- A cache root whose control file lists three transactions, newest first, each with its
directory. -/
def threeOnDisk : Disk :=
  Disk.plain [["cache"], ["cache", "c"], ["cache", "b"], ["cache", "a"]]
    fun p => if p = ["cache", "cache.json"] then some [("c", "s3"), ("b", "s2"), ("a", "s1")]
      else none

/-- An empty disk on which `os.MkdirAll` fails. -/
def noMkdirDisk : Disk :=
  { Disk.plain [] (fun _ => none) with mkdirFault := fun _ => some (Err.errno "EACCES") }

/-- An empty disk on which writing the control file fails. -/
def noSaveDisk : Disk :=
  { Disk.plain [] (fun _ => none) with saveFault := fun _ => some (Err.errno "ENOSPC") }

/-! ## `mutex.Mutex`

Instants are counted in nanoseconds from Go's zero `time.Time`; a reading of `time.Now()`
is a natural number, a computed instant such as `next` an integer. A `sync.Mutex` is
its state: locked or not. -/

/-- The struct `Mutex`: the interval `d`, the instant `next`, and the state of `mu`. -/
structure Mutex where
  d : Int
  next : Int
  mu : Bool
  deriving DecidableEq, Repr

/-- The function `mutex.New`: `next` is the zero time and `mu` is unlocked. -/
def Mutex.New (d : Int) : Mutex := { d := d, next := 0, mu := false }

/-- How a call of `Lock` ends: it returns nil at an instant, it returns `Cancel` at an
instant, or it never returns because `m.mu.Lock()` waits for a holder that does not unlock. -/
inductive LockOutcome where
  | admitted (at_ : Int)
  | cancelled (at_ : Int)
  | blocked
  deriving DecidableEq, Repr

/-- The method `Mutex.Lock`. `now` is its reading of `time.Now()`, `cancelAt` the instant at
which `ctx.Done()` is closed if ever, and `pick` the branch that `select` takes when it has
the choice: when both channels are ready as the `select` is entered (the context already
cancelled and the timer already due), or when both become ready at the same instant. The
timer of `time.After(m.next.Sub(now))` fires at once for a duration that is not positive.
Neither branch touches `m.mu` again. -/
def Mutex.Lock (m : Mutex) (now : Nat) (cancelAt : Option Int) (pick : Bool) :
    Mutex × LockOutcome :=
  if m.mu then (m, LockOutcome.blocked)
  else
    let m1 : Mutex := { m with mu := true }
    let fire : Int := (now : Int) + max 0 (m.next - now)
    match cancelAt with
    | none => (m1, LockOutcome.admitted fire)
    | some tc =>
      if fire < tc then (m1, LockOutcome.admitted fire)
      else if tc < fire ∧ (now : Int) < fire then (m1, LockOutcome.cancelled (max (now : Int) tc))
      else if pick then (m1, LockOutcome.cancelled fire)
      else (m1, LockOutcome.admitted fire)

/-- The method `Mutex.Unlock`; `now` is its reading of `time.Now()`. Unlocking an unlocked
`sync.Mutex` is a fatal run-time error. -/
def Mutex.Unlock (m : Mutex) (now : Nat) : Option Mutex :=
  if m.mu then some { m with next := (now : Int) + m.d, mu := false } else none

/-- One `Lock`/`Unlock` pair of a caller: the clock readings of the two calls and the cancel
signal the `Lock` is given. -/
structure Round where
  lockNow : Nat
  cancelAt : Option Int
  pick : Bool
  unlockNow : Nat
  deriving DecidableEq, Repr

/-- A sequence of `Lock`/`Unlock` pairs on one mutex. The result is the list of admission
instants; it is `none` when some `Lock` is not admitted or some `Unlock` faults. -/
def runRounds : Mutex → List Round → Option (List Int × Mutex)
  | m, [] => some ([], m)
  | m, r :: rest =>
    match m.Lock r.lockNow r.cancelAt r.pick with
    | (m1, LockOutcome.admitted t) =>
      match m1.Unlock r.unlockNow with
      | some m2 =>
        match runRounds m2 rest with
        | some (ts, m3) => some (t :: ts, m3)
        | none => none
      | none => none
    | _ => none

/-! ## Requests, payloads and fingerprints -/

/-- A Go `[]byte` or `string`: a sequence of bytes. A byte is a natural number; the bytes
of a Go value are below 256. -/
abbrev Bytes := List Nat

/-- The bytes of an ASCII string literal. -/
def ascii (s : String) : Bytes := s.data.map fun c => c.toNat

/-- An `io.ReadCloser`, as what it delivers: its bytes, then end of file or a read error. -/
structure Reader where
  data : Bytes
  fault : Option Err
  deriving DecidableEq

/-- The call `io.CopyN(w, r, n)` on an empty buffer `w`: the bytes written and the error.
With `n` bytes written the error is nil; with fewer it is the reader's error, or `io.EOF`. -/
def CopyN (r : Reader) (n : Nat) : Bytes × Option Err :=
  if n ≤ r.data.length then (r.data.take n, none)
  else (r.data, some (r.fault.getD Err.eof))

/-- The fields of `http.Request` that the cache reads: the method, `req.URL.String()`, and
`req.GetBody`, which is nil or yields a fresh reader or an error each time it is called. -/
structure Request where
  Method : Bytes
  Url : Bytes
  GetBody : Option (Except Err Reader)
  deriving DecidableEq

/-- The struct `cReq`; a nil `Payload` is `none`. -/
structure cReq where
  Method : Bytes
  Url : Bytes
  Payload : Option Bytes
  deriving DecidableEq, Repr

/-- The function `getPayload`. -/
def getPayload (getBody : Option (Except Err Reader)) : Except Err (Option Bytes) :=
  match getBody with
  | none => Except.ok none
  | some (Except.error e) => Except.error e
  | some (Except.ok r) =>
    match CopyN r 256 with
    | (w, some e) => if e = Err.eof then Except.ok (some w) else Except.error e
    | (w, none) => Except.ok (some w)

/-- The function `newCreq`. -/
def newCreq (req : Request) : Except Err cReq :=
  match getPayload req.GetBody with
  | Except.error e => Except.error e
  | Except.ok payload => Except.ok { Method := req.Method, Url := req.Url, Payload := payload }

/-- The call `hex.EncodeToString`. -/
def hexEncode (b : Bytes) : String :=
  String.mk (b.flatMap fun x => [hexDigit (x / 16 % 16), hexDigit (x % 16)])

/-- The buffer that `ident` hashes: method, URL, and the payload when it is not nil. -/
def cReq.identBuffer (cq : cReq) : Bytes :=
  cq.Method ++ cq.Url ++ (match cq.Payload with
    | some p => p
    | none => [])

/-- The method `cReq.ident`; `md5sum` is `md5.Sum` of the Go library. -/
def cReq.ident (md5sum : Bytes → Bytes) (cq : cReq) : String :=
  hexEncode (md5sum cq.identBuffer)

/-- The struct `File`. -/
structure File where
  creq : cReq
  pathname : Path
  deriving DecidableEq, Repr

/-- The method `Tx.NewFile`. -/
def Tx.NewFile (md5sum : Bytes → Bytes) (tx : Tx) (req : Request) : Except Err File :=
  match newCreq req with
  | Except.error e => Except.error e
  | Except.ok creq => Except.ok { creq := creq, pathname := pathJoin tx.dir (creq.ident md5sum) }

/-- A request whose body is the given bytes, served whole by `GetBody`. -/
def requestWithBody (method url body : Bytes) : Request :=
  { Method := method, Url := url, GetBody := some (Except.ok { data := body, fault := none }) }

/-- A stand-in for a digest in concrete checks: the first 16 bytes of the input. -/
def first16 (b : Bytes) : Bytes := b.take 16

/-! ## Requests with the same hashed buffer -/

/-- The bytes of a payload: a nil payload has none. -/
def payloadBytes (p : Option Bytes) : Bytes :=
  match p with
  | some b => b
  | none => []

/-- A request without `GetBody`, such as one made with a nil body. -/
def requestWithoutBody (method url : Bytes) : Request :=
  { Method := method, Url := url, GetBody := none }

/-! ## `ScanCsv` -/

/-- The constant `SkipAll` of package `crawl`, a `notifyb.Notify`. -/
def SkipAll : Err := Err.notify "skip all"

/-- The interface `ReadCsvRower`, over the state `σ` of the value that implements it. Each
method returns the new state and the error. -/
structure ReadCsvRower (σ : Type) where
  ReadRow : σ → Int → List String → σ × Option Err
  Done : σ → σ × Option Err

/-- The loop of `ScanCsv` from index `i` on. The `csv.Reader` is the list of the results of
its successive `Read` calls, a record or an error each; after the last one `Read` returns
`io.EOF`. The index is a Go `int`; an input of `2^63` records is out of reach. -/
def scanLoop {σ : Type} (rower : ReadCsvRower σ) :
    List (Except Err (List String)) → Int → σ → σ × Option Err
  | [], _, s => rower.Done s
  | Except.error e :: _, _, s => if e = Err.eof then rower.Done s else (s, some e)
  | Except.ok rec :: rest, i, s =>
    match rower.ReadRow s i rec with
    | (s1, some e) => if e = SkipAll then (s1, none) else (s1, some e)
    | (s1, none) => scanLoop rower rest (i + 1) s1

/-- The function `ScanCsv`, given the results that `csvr.Read()` delivers for the reader `r`
decoded with `enc`. -/
def ScanCsv {σ : Type} (reads : List (Except Err (List String))) (rower : ReadCsvRower σ)
    (s : σ) : σ × Option Err :=
  scanLoop rower reads 0 s

/-- A call that `ScanCsv` makes on its rower. -/
inductive Call where
  | readRow (i : Int) (row : List String)
  | done
  deriving DecidableEq, Repr

/-- The same rower, also writing down each call made on it. -/
def traced {σ : Type} (rower : ReadCsvRower σ) : ReadCsvRower (σ × List Call) :=
  { ReadRow := fun s i row =>
      ((((rower.ReadRow s.1 i row).1), s.2 ++ [Call.readRow i row]), (rower.ReadRow s.1 i row).2)
    Done := fun s => ((((rower.Done s.1).1), s.2 ++ [Call.done]), (rower.Done s.1).2) }

/-- The state of the rower after `ReadRow` on each of `rows`, numbered from `i`. -/
def feedRows {σ : Type} (rower : ReadCsvRower σ) : List (List String) → Int → σ → σ
  | [], _, s => s
  | row :: rest, i, s => feedRows rower rest (i + 1) (rower.ReadRow s i row).1

/-- The calls `ReadRow(i, r_i)`, numbered from `i`. -/
def rowCalls : List (List String) → Int → List Call
  | [], _ => []
  | row :: rest, i => Call.readRow i row :: rowCalls rest (i + 1)

/-- The rower `tReadCsvRower` of the tests: its state is the list of events. A row with
fewer than four columns is given an empty fourth column here. -/
def tReadCsvRower : ReadCsvRower (List String) :=
  { ReadRow := fun ev _ row =>
      (ev ++ ["len: " ++ toString row.length ++ ", " ++ row.getD 3 ""], none)
    Done := fun ev => (ev ++ ["done"], none) }

/-- Four records of fifteen columns with the fourth columns of `testfiles/utf8.csv`. -/
def utf8Rows : List (List String) :=
  [["04101", "980", "9800000", "ﾐﾔｷﾞｹﾝ"] ++ List.replicate 11 "0",
   ["04102", "983", "9830000", "ﾐﾔｷﾞｹﾝ"] ++ List.replicate 11 "0",
   ["20201", "380", "3800000", "ﾅｶﾞﾉｹﾝ"] ++ List.replicate 11 "0",
   ["35201", "750", "7500000", "ﾔﾏｸﾞﾁｹﾝ"] ++ List.replicate 11 "0"]

/-! ## `ScanCsv` stopped by its rower -/

/-- In the run that starts in state `s`, `ReadRow` returns nil on each of `rows`, numbered
from `i`. -/
def rowsAccepted {σ : Type} (rower : ReadCsvRower σ) : List (List String) → Int → σ → Prop
  | [], _, _ => True
  | row :: rest, i, s =>
    (rower.ReadRow s i row).2 = none
      ∧ rowsAccepted rower rest (i + 1) (rower.ReadRow s i row).1

/-- A rower that writes down its events like `tReadCsvRower` and returns the error `e` from
`ReadRow` at row `k`. -/
def stopAtRower (k : Int) (e : Err) : ReadCsvRower (List String) :=
  { ReadRow := fun ev i row =>
      (ev ++ ["len: " ++ toString row.length ++ ", " ++ row.getD 3 ""],
       if i = k then some e else none)
    Done := fun ev => (ev ++ ["done"], none) }

/-! ## `encoding/json`: strings

The Go library is modelled from its documentation and source, on the compact form that
`Encoder.Encode` writes. A string is written coerced to valid UTF-8, every invalid byte
replaced by U+FFFD, with `"`, `\`, control characters, `<`, `>`, `&`, U+2028 and U+2029
escaped. -/

/-- A UTF-8 continuation byte. -/
def isCont (b : Nat) : Bool := decide (0x80 ≤ b) && decide (b ≤ 0xBF)

/-- A well-formed two-byte sequence starts the input: C2..DF and a continuation byte. -/
def wf2 : Bytes → Bool
  | b0 :: b1 :: _ => decide (0xC2 ≤ b0) && decide (b0 ≤ 0xDF) && isCont b1
  | _ => false

/-- A well-formed three-byte sequence starts the input; E0 and ED narrow the second byte
(no overlong forms, no surrogates). -/
def wf3 : Bytes → Bool
  | b0 :: b1 :: b2 :: _ =>
    decide (0xE0 ≤ b0) && decide (b0 ≤ 0xEF)
      && decide ((if b0 = 0xE0 then 0xA0 else 0x80) ≤ b1)
      && decide (b1 ≤ (if b0 = 0xED then 0x9F else 0xBF)) && isCont b2
  | _ => false

/-- A well-formed four-byte sequence starts the input; F0 and F4 narrow the second byte. -/
def wf4 : Bytes → Bool
  | b0 :: b1 :: b2 :: b3 :: _ =>
    decide (0xF0 ≤ b0) && decide (b0 ≤ 0xF4)
      && decide ((if b0 = 0xF0 then 0x90 else 0x80) ≤ b1)
      && decide (b1 ≤ (if b0 = 0xF4 then 0x8F else 0xBF)) && isCont b2 && isCont b3
  | _ => false

/-- The size that `utf8.DecodeRune` reports for the head of `s` when a well-formed
sequence starts there; 0 when `s` is empty or the head is an invalid byte (`RuneError`
with size 1). -/
def runeLen : Bytes → Nat
  | [] => 0
  | b0 :: t =>
    if b0 < 0x80 then 1
    else if wf2 (b0 :: t) then 2
    else if wf3 (b0 :: t) then 3
    else if wf4 (b0 :: t) then 4
    else 0

/-- The UTF-8 form of U+FFFD, the replacement rune. -/
def runeErrorBytes : Bytes := [0xEF, 0xBF, 0xBD]

/-- The table `htmlSafeSet`: the ASCII bytes that are written as they are. -/
def htmlSafe (b : Nat) : Bool :=
  decide (0x20 ≤ b) && decide (b < 0x80) && decide (b ≠ 0x22) && decide (b ≠ 0x5C)
    && decide (b ≠ 0x3C) && decide (b ≠ 0x3E) && decide (b ≠ 0x26)

/-- The digit `"0123456789abcdef"[d]`. -/
def hexByte (d : Nat) : Nat := if d < 10 then 48 + d else 87 + d

/-- The escape that `appendString` writes for an ASCII byte outside `htmlSafeSet`. -/
def escapeAscii (b : Nat) : Bytes :=
  if b = 0x5C ∨ b = 0x22 then [0x5C, b]
  else if b = 8 then [0x5C, 0x62]
  else if b = 12 then [0x5C, 0x66]
  else if b = 10 then [0x5C, 0x6E]
  else if b = 13 then [0x5C, 0x72]
  else if b = 9 then [0x5C, 0x74]
  else [0x5C, 0x75, 0x30, 0x30, hexByte (b / 16), hexByte (b % 16)]

/-- One turn of the loop of `appendString`: what is written for the head of the source,
and the source that is left. -/
def encStep : Bytes → Bytes × Bytes
  | [] => ([], [])
  | b :: tl =>
    if b < 0x80 then (if htmlSafe b then [b] else escapeAscii b, tl)
    else if runeLen (b :: tl) = 0 then ([0x5C, 0x75, 0x66, 0x66, 0x66, 0x64], tl)
    else if (b :: tl).take 3 = [0xE2, 0x80, 0xA8] then
      ([0x5C, 0x75, 0x32, 0x30, 0x32, 0x38], (b :: tl).drop 3)
    else if (b :: tl).take 3 = [0xE2, 0x80, 0xA9] then
      ([0x5C, 0x75, 0x32, 0x30, 0x32, 0x39], (b :: tl).drop 3)
    else ((b :: tl).take (runeLen (b :: tl)), (b :: tl).drop (runeLen (b :: tl)))

/-- The loop of `appendString`. -/
def encLoop : Nat → Bytes → Bytes
  | 0, _ => []
  | _ + 1, [] => []
  | fuel + 1, b :: tl => (encStep (b :: tl)).1 ++ encLoop fuel (encStep (b :: tl)).2

/-- The function `appendString` with `escapeHTML` set: the JSON string literal for `s`. -/
def appendString (s : Bytes) : Bytes := 0x22 :: (encLoop s.length s ++ [0x22])

/-- One turn of the coercion to valid UTF-8: a well-formed sequence is kept, an invalid
byte becomes U+FFFD. -/
def coerceStep : Bytes → Bytes × Bytes
  | [] => ([], [])
  | b :: tl =>
    if runeLen (b :: tl) = 0 then (runeErrorBytes, tl)
    else ((b :: tl).take (runeLen (b :: tl)), (b :: tl).drop (runeLen (b :: tl)))

/-- The loop of the coercion. -/
def coerceLoop : Nat → Bytes → Bytes
  | 0, _ => []
  | _ + 1, [] => []
  | fuel + 1, b :: tl => (coerceStep (b :: tl)).1 ++ coerceLoop fuel (coerceStep (b :: tl)).2

/-- The string `s` coerced to valid UTF-8. -/
def coerceUTF8 (s : Bytes) : Bytes := coerceLoop s.length s

/-- The loop of `utf8.Valid`. -/
def validLoop : Nat → Bytes → Bool
  | 0, s => decide (s = [])
  | _ + 1, [] => true
  | fuel + 1, b :: tl =>
    decide (runeLen (b :: tl) ≠ 0) && validLoop fuel ((b :: tl).drop (runeLen (b :: tl)))

/-- The function `utf8.Valid`. -/
def utf8Valid (s : Bytes) : Bool := validLoop s.length s

/-- The value of a hexadecimal digit, either case. -/
def hexDigitVal (c : Nat) : Option Nat :=
  if 48 ≤ c ∧ c ≤ 57 then some (c - 48)
  else if 97 ≤ c ∧ c ≤ 102 then some (c - 87)
  else if 65 ≤ c ∧ c ≤ 70 then some (c - 55)
  else none

/-- The function `getu4`, on the input that follows `\u`: the value of four hexadecimal
digits. -/
def getu4 : Bytes → Option Nat
  | a :: b :: c :: d :: _ =>
    match hexDigitVal a, hexDigitVal b, hexDigitVal c, hexDigitVal d with
    | some a, some b, some c, some d => some (((a * 16 + b) * 16 + c) * 16 + d)
    | _, _, _, _ => none
  | _ => none

/-- The function `utf8.AppendRune`. -/
def encodeRune (r : Nat) : Bytes :=
  if r < 0x80 then [r]
  else if r < 0x800 then [0xC0 + r / 64, 0x80 + r % 64]
  else if 0xD800 ≤ r ∧ r < 0xE000 then runeErrorBytes
  else if r < 0x10000 then [0xE0 + r / 4096, 0x80 + r / 64 % 64, 0x80 + r % 64]
  else if r < 0x110000 then
    [0xF0 + r / 262144, 0x80 + r / 4096 % 64, 0x80 + r / 64 % 64, 0x80 + r % 64]
  else runeErrorBytes

/-- The byte that a one-letter escape stands for. -/
def unescape (e : Nat) : Option Nat :=
  if e = 0x22 ∨ e = 0x5C ∨ e = 0x2F then some e
  else if e = 0x62 then some 8
  else if e = 0x66 then some 12
  else if e = 0x6E then some 10
  else if e = 0x72 then some 13
  else if e = 0x74 then some 9
  else none

/-- What `unquote` does with `\u` and the four digits of value `r`, the input after them
being `tl`: a surrogate half that is followed by the escape of its other half gives the
combined rune, a lone one gives U+FFFD. -/
def unquoteU (r : Nat) (tl : Bytes) : Bytes × Bytes :=
  if 0xD800 ≤ r ∧ r < 0xE000 then
    match tl with
    | e :: u :: tl2 =>
      if e = 0x5C ∧ u = 0x75 then
        match getu4 tl2 with
        | some r2 =>
          if r < 0xDC00 ∧ 0xDC00 ≤ r2 ∧ r2 < 0xE000 then
            (encodeRune (0x10000 + (r - 0xD800) * 1024 + (r2 - 0xDC00)), tl2.drop 4)
          else (runeErrorBytes, tl)
        | none => (runeErrorBytes, tl)
      else (runeErrorBytes, tl)
    | _ => (runeErrorBytes, tl)
  else (encodeRune r, tl)

/-- One turn of the loop of `unquote` inside a string literal, the head not being the
closing quote: the bytes it yields and the input that is left; `none` for a literal that
the scanner rejects. -/
def unquoteStep : Bytes → Option (Bytes × Bytes)
  | [] => none
  | c :: tl =>
    if c = 0x5C then
      match tl with
      | [] => none
      | e :: tl2 =>
        if e = 0x75 then
          match getu4 tl2 with
          | none => none
          | some r => some (unquoteU r (tl2.drop 4))
        else
          match unescape e with
          | some b => some ([b], tl2)
          | none => none
    else if c < 0x20 then none
    else if c < 0x80 then some ([c], tl)
    else if runeLen (c :: tl) = 0 then some (runeErrorBytes, tl)
    else some ((c :: tl).take (runeLen (c :: tl)), (c :: tl).drop (runeLen (c :: tl)))

/-- The loop of `unquote` after the opening quote: the string and the input after the
closing quote. -/
def unquoteLoop : Nat → Bytes → Option (Bytes × Bytes)
  | 0, _ => none
  | _ + 1, [] => none
  | fuel + 1, c :: tl =>
    if c = 0x22 then some ([], tl)
    else
      match unquoteStep (c :: tl) with
      | none => none
      | some (out, rest) =>
        match unquoteLoop fuel rest with
        | none => none
        | some (s, rest2) => some (out ++ s, rest2)

/-- Reads one JSON string literal from the head of the input. -/
def parseString : Bytes → Option (Bytes × Bytes)
  | [] => none
  | c :: tl => if c = 0x22 then unquoteLoop tl.length tl else none

/-! ## `encoding/json`: integers, booleans and `null` -/

/-- Decimal digits of `n`, most significant first, pushed in front of `acc`. -/
def decDigitsAux : Nat → Nat → Bytes → Bytes
  | 0, _, acc => acc
  | fuel + 1, n, acc =>
    if n / 10 = 0 then (48 + n % 10) :: acc
    else decDigitsAux fuel (n / 10) ((48 + n % 10) :: acc)

/-- The decimal form of a natural number. -/
def appendNat (n : Nat) : Bytes := decDigitsAux (n + 1) n []

/-- The call `strconv.AppendInt(dst, x, 10)`, by which an integer field is written. -/
def appendInt (x : Int) : Bytes :=
  match x with
  | Int.ofNat n => appendNat n
  | Int.negSucc n => 0x2D :: appendNat (n + 1)

/-- A decimal digit. -/
def isDigit (c : Nat) : Bool := decide (48 ≤ c) && decide (c ≤ 57)

/-- The longest run of digits at the head of the input, and what follows it. -/
def takeDigits : Bytes → Bytes × Bytes
  | [] => ([], [])
  | c :: tl => if isDigit c then (c :: (takeDigits tl).1, (takeDigits tl).2) else ([], c :: tl)

/-- The number that a run of digits denotes. -/
def digitsValue (ds : Bytes) : Nat := ds.foldl (fun a c => 10 * a + (c - 48)) 0

/-- Reads an unsigned JSON integer: digits, no leading zero. -/
def parseNatLit (inp : Bytes) : Option (Nat × Bytes) :=
  if (takeDigits inp).1 = [] then none
  else if (takeDigits inp).1.head? = some 48 ∧ (takeDigits inp).1.length ≠ 1 then none
  else some (digitsValue (takeDigits inp).1, (takeDigits inp).2)

/-- Reads a JSON integer into an integer field. -/
def parseInt : Bytes → Option (Int × Bytes)
  | [] => none
  | c :: tl =>
    if c = 0x2D then
      match parseNatLit tl with
      | some (n, rest) => some (-(n : Int), rest)
      | none => none
    else
      match parseNatLit (c :: tl) with
      | some (n, rest) => some ((n : Int), rest)
      | none => none

/-- Reads the given literal from the head of the input. -/
def expectLit (lit inp : Bytes) : Option Bytes :=
  if lit.isPrefixOf inp then some (inp.drop lit.length) else none

/-- The literal `null`. -/
def nullLit : Bytes := [0x6E, 0x75, 0x6C, 0x6C]

/-- The JSON form of a boolean. -/
def appendBool (b : Bool) : Bytes :=
  if b then [0x74, 0x72, 0x75, 0x65] else [0x66, 0x61, 0x6C, 0x73, 0x65]

/-- Reads a JSON boolean. -/
def parseBool (inp : Bytes) : Option (Bool × Bytes) :=
  match expectLit [0x74, 0x72, 0x75, 0x65] inp with
  | some rest => some (true, rest)
  | none =>
    match expectLit [0x66, 0x61, 0x6C, 0x73, 0x65] inp with
    | some rest => some (false, rest)
    | none => none

/-- The input does not go on with a digit. -/
def noDigitAhead (X : Bytes) : Prop := ∀ c tl, X = c :: tl → isDigit c = false

/-! ## `encoding/json`: byte slices, string slices and maps -/

/-- The character `encodeStd[i]` of the standard base64 alphabet. -/
def b64Char (i : Nat) : Nat :=
  if i < 26 then 65 + i
  else if i < 52 then 97 + (i - 26)
  else if i < 62 then 48 + (i - 52)
  else if i = 62 then 43
  else 47

/-- The call `base64.StdEncoding.EncodeToString`, by which a `[]byte` field is written. -/
def b64Encode : Bytes → Bytes
  | a :: b :: c :: tl =>
    b64Char (a / 4 % 64) :: b64Char (a % 4 * 16 + b / 16 % 16)
      :: b64Char (b % 16 * 4 + c / 64 % 4) :: b64Char (c % 64) :: b64Encode tl
  | [a, b] => [b64Char (a / 4 % 64), b64Char (a % 4 * 16 + b / 16 % 16), b64Char (b % 16 * 4), 61]
  | [a] => [b64Char (a / 4 % 64), b64Char (a % 4 * 16), 61, 61]
  | [] => []

/-- The value of a character of the base64 alphabet. -/
def b64Val (c : Nat) : Option Nat :=
  if 65 ≤ c ∧ c ≤ 90 then some (c - 65)
  else if 97 ≤ c ∧ c ≤ 122 then some (c - 71)
  else if 48 ≤ c ∧ c ≤ 57 then some (c + 4)
  else if c = 43 then some 62
  else if c = 47 then some 63
  else none

/-- The bytes of one group of four base64 characters, `=` being the padding, and whether
the group is padded. -/
def b64Quad (c0 c1 c2 c3 : Nat) : Option (Bytes × Bool) :=
  match b64Val c0, b64Val c1 with
  | some v0, some v1 =>
    if c2 = 61 then (if c3 = 61 then some ([v0 * 4 + v1 / 16], true) else none)
    else
      match b64Val c2 with
      | none => none
      | some v2 =>
        if c3 = 61 then some ([v0 * 4 + v1 / 16, v1 % 16 * 16 + v2 / 4], true)
        else
          match b64Val c3 with
          | none => none
          | some v3 => some ([v0 * 4 + v1 / 16, v1 % 16 * 16 + v2 / 4, v2 % 4 * 64 + v3], false)
  | _, _ => none

/-- The call `base64.StdEncoding.Decode` on input without line breaks. -/
def b64Decode : Bytes → Option Bytes
  | [] => some []
  | c0 :: c1 :: c2 :: c3 :: tl =>
    match b64Quad c0 c1 c2 c3 with
    | none => none
    | some (out, padded) =>
      if padded then (if tl = [] then some out else none)
      else
        match b64Decode tl with
        | none => none
        | some r => some (out ++ r)
  | _ => none

/-- String literals separated by commas. -/
def appendStrings : List Bytes → Bytes
  | [] => []
  | [s] => appendString s
  | s :: t :: rest => appendString s ++ 0x2C :: appendStrings (t :: rest)

/-- The JSON form of a `[]string`: `null` for nil, else an array. -/
def appendStringList : Option (List Bytes) → Bytes
  | none => nullLit
  | some l => 0x5B :: (appendStrings l ++ [0x5D])

/-- Reads the elements of a non-empty array of strings up to the closing bracket. -/
def parseStringsLoop : Nat → Bytes → Option (List Bytes × Bytes)
  | 0, _ => none
  | fuel + 1, inp =>
    match parseString inp with
    | none => none
    | some (_, []) => none
    | some (s, c :: tl) =>
      if c = 0x2C then
        match parseStringsLoop fuel tl with
        | none => none
        | some (l, rest) => some (s :: l, rest)
      else if c = 0x5D then some ([s], tl)
      else none

/-- Reads a JSON value into a `[]string`. -/
def parseStringList (inp : Bytes) : Option (Option (List Bytes) × Bytes) :=
  match expectLit nullLit inp with
  | some rest => some (none, rest)
  | none =>
    match inp with
    | c :: d :: tl =>
      if c = 0x5B then
        if d = 0x5D then some (some [], tl)
        else
          match parseStringsLoop (d :: tl).length (d :: tl) with
          | none => none
          | some (l, rest) => some (some l, rest)
      else none
    | _ => none

/-- A Go `map[string][]string` such as `http.Header`: `none` is the nil map, else the
entries, each key once. -/
abbrev HeaderMap := Option (List (Bytes × Option (List Bytes)))

/-- The index expression `h[k]`: the values of the key, if it is present. -/
def headerGet (h : HeaderMap) (k : Bytes) : Option (Option (List Bytes)) :=
  match h with
  | none => none
  | some m => (m.find? fun e => decide (e.1 = k)).map Prod.snd

/-- The byte-wise order of Go strings. -/
def bytesLe : Bytes → Bytes → Bool
  | [], _ => true
  | _ :: _, [] => false
  | a :: s, b :: t => decide (a < b) || (decide (a = b) && bytesLe s t)

/-- The entries of a map in the order in which `json` writes them: sorted by key. -/
def sortEntries (m : List (Bytes × Option (List Bytes))) : List (Bytes × Option (List Bytes)) :=
  m.insertionSort fun a b => bytesLe a.1 b.1 = true

/-- One map entry: the key, a colon, the value. -/
def appendEntry (e : Bytes × Option (List Bytes)) : Bytes :=
  appendString e.1 ++ 0x3A :: appendStringList e.2

/-- Map entries separated by commas. -/
def appendEntries : List (Bytes × Option (List Bytes)) → Bytes
  | [] => []
  | [e] => appendEntry e
  | e :: e2 :: rest => appendEntry e ++ 0x2C :: appendEntries (e2 :: rest)

/-- The JSON form of a `map[string][]string`: `null` for nil, else an object with the
keys in increasing order. -/
def appendHeader : HeaderMap → Bytes
  | none => nullLit
  | some m => 0x7B :: (appendEntries (sortEntries m) ++ [0x7D])

/-- Reads the entries of a non-empty object up to the closing brace. -/
def parseEntriesLoop : Nat → Bytes → Option (List (Bytes × Option (List Bytes)) × Bytes)
  | 0, _ => none
  | fuel + 1, inp =>
    match parseString inp with
    | none => none
    | some (_, []) => none
    | some (k, c :: tl) =>
      if c = 0x3A then
        match parseStringList tl with
        | none => none
        | some (_, []) => none
        | some (v, c2 :: tl2) =>
          if c2 = 0x2C then
            match parseEntriesLoop fuel tl2 with
            | none => none
            | some (l, rest) => some ((k, v) :: l, rest)
          else if c2 = 0x7D then some ([(k, v)], tl2)
          else none
      else none

/-- The assignment `m[k] = v` on the entries of a map. -/
def mapInsert (m : List (Bytes × Option (List Bytes))) (e : Bytes × Option (List Bytes)) :
    List (Bytes × Option (List Bytes)) :=
  if m.any (fun x => decide (x.1 = e.1)) then m.map fun x => if x.1 = e.1 then e else x
  else m ++ [e]

/-- Reads a JSON value into a `map[string][]string`; a key that comes again overwrites. -/
def parseHeader (inp : Bytes) : Option (HeaderMap × Bytes) :=
  match expectLit nullLit inp with
  | some rest => some (none, rest)
  | none =>
    match inp with
    | c :: d :: tl =>
      if c = 0x7B then
        if d = 0x7D then some (some [], tl)
        else
          match parseEntriesLoop (d :: tl).length (d :: tl) with
          | none => none
          | some (l, rest) => some (some (l.foldl mapInsert []), rest)
      else none
    | _ => none

/-- The JSON form of a `[]byte`: `null` for nil, else the base64 text as a string. -/
def appendByteSlice : Option Bytes → Bytes
  | none => nullLit
  | some p => appendString (b64Encode p)

/-- Reads a JSON value into a `[]byte`. -/
def parseByteSlice (inp : Bytes) : Option (Option Bytes × Bytes) :=
  match expectLit nullLit inp with
  | some rest => some (none, rest)
  | none =>
    match parseString inp with
    | none => none
    | some (s, rest) =>
      match b64Decode s with
      | none => none
      | some p => some (some p, rest)

/-! ## Cache entry files: `File.Store` and `File.Load` -/

/-- The fields of `http.Response` that the cache reads and sets. `Request` is the method
and the URL string of the originating request. -/
structure Response where
  Status : Bytes
  StatusCode : Int
  Proto : Bytes
  ProtoMajor : Int
  ProtoMinor : Int
  Header : HeaderMap
  ContentLength : Int
  TransferEncoding : Option (List Bytes)
  Uncompressed : Bool
  Body : Reader
  Request : Option (Bytes × Bytes)
  deriving DecidableEq

/-- The struct `cRes`. -/
structure cRes where
  Status : Bytes
  StatusCode : Int
  Proto : Bytes
  ProtoMajor : Int
  ProtoMinor : Int
  Header : HeaderMap
  ContentLength : Int
  TransferEncoding : Option (List Bytes)
  Uncompressed : Bool
  deriving DecidableEq, Repr

/-- The function `newCres`. -/
def newCres (resp : Response) : cRes :=
  { Status := resp.Status, StatusCode := resp.StatusCode, Proto := resp.Proto,
    ProtoMajor := resp.ProtoMajor, ProtoMinor := resp.ProtoMinor, Header := resp.Header,
    ContentLength := resp.ContentLength, TransferEncoding := resp.TransferEncoding,
    Uncompressed := resp.Uncompressed }

/-- The method `cRes.newResponse`; the body and the request are set by the caller. -/
def cRes.newResponse (cs : cRes) : Response :=
  { Status := cs.Status, StatusCode := cs.StatusCode, Proto := cs.Proto,
    ProtoMajor := cs.ProtoMajor, ProtoMinor := cs.ProtoMinor, Header := cs.Header,
    ContentLength := cs.ContentLength, TransferEncoding := cs.TransferEncoding,
    Uncompressed := cs.Uncompressed, Body := { data := [], fault := none }, Request := none }

/-- The JSON object that `json` writes for a `cReq`, without the final newline. -/
def appendCReq (q : cReq) : Bytes :=
  0x7B :: ascii "\"Method\":" ++ appendString q.Method
    ++ (0x2C :: ascii "\"Url\":") ++ appendString q.Url
    ++ (0x2C :: ascii "\"Payload\":") ++ appendByteSlice q.Payload ++ [0x7D]

/-- The JSON object that `json` writes for a `cRes`, without the final newline. -/
def appendCRes (r : cRes) : Bytes :=
  0x7B :: ascii "\"Status\":" ++ appendString r.Status
    ++ (0x2C :: ascii "\"StatusCode\":") ++ appendInt r.StatusCode
    ++ (0x2C :: ascii "\"Proto\":") ++ appendString r.Proto
    ++ (0x2C :: ascii "\"ProtoMajor\":") ++ appendInt r.ProtoMajor
    ++ (0x2C :: ascii "\"ProtoMinor\":") ++ appendInt r.ProtoMinor
    ++ (0x2C :: ascii "\"Header\":") ++ appendHeader r.Header
    ++ (0x2C :: ascii "\"ContentLength\":") ++ appendInt r.ContentLength
    ++ (0x2C :: ascii "\"TransferEncoding\":") ++ appendStringList r.TransferEncoding
    ++ (0x2C :: ascii "\"Uncompressed\":") ++ appendBool r.Uncompressed ++ [0x7D]

/-- Reads one field of an object: the literal that precedes the value (punctuation and
key), then the value. -/
def parseField {α : Type} (lit : Bytes) (parse : Bytes → Option (α × Bytes)) (inp : Bytes) :
    Option (α × Bytes) :=
  match expectLit lit inp with
  | none => none
  | some rest => parse rest

/-- Reads the object of a `cReq` in the form in which `json` writes it. -/
def parseCReq (inp : Bytes) : Option (cReq × Bytes) :=
  match parseField (0x7B :: ascii "\"Method\":") parseString inp with
  | none => none
  | some (m, r1) =>
  match parseField (0x2C :: ascii "\"Url\":") parseString r1 with
  | none => none
  | some (u, r2) =>
  match parseField (0x2C :: ascii "\"Payload\":") parseByteSlice r2 with
  | none => none
  | some (p, r3) =>
  match expectLit [0x7D] r3 with
  | none => none
  | some r4 => some ({ Method := m, Url := u, Payload := p }, r4)

/-- Reads the object of a `cRes` in the form in which `json` writes it. -/
def parseCRes (inp : Bytes) : Option (cRes × Bytes) :=
  match parseField (0x7B :: ascii "\"Status\":") parseString inp with
  | none => none
  | some (st, r1) =>
  match parseField (0x2C :: ascii "\"StatusCode\":") parseInt r1 with
  | none => none
  | some (sc, r2) =>
  match parseField (0x2C :: ascii "\"Proto\":") parseString r2 with
  | none => none
  | some (pr, r3) =>
  match parseField (0x2C :: ascii "\"ProtoMajor\":") parseInt r3 with
  | none => none
  | some (pj, r4) =>
  match parseField (0x2C :: ascii "\"ProtoMinor\":") parseInt r4 with
  | none => none
  | some (pn, r5) =>
  match parseField (0x2C :: ascii "\"Header\":") parseHeader r5 with
  | none => none
  | some (hd, r6) =>
  match parseField (0x2C :: ascii "\"ContentLength\":") parseInt r6 with
  | none => none
  | some (cl, r7) =>
  match parseField (0x2C :: ascii "\"TransferEncoding\":") parseStringList r7 with
  | none => none
  | some (te, r8) =>
  match parseField (0x2C :: ascii "\"Uncompressed\":") parseBool r8 with
  | none => none
  | some (un, r9) =>
  match expectLit [0x7D] r9 with
  | none => none
  | some r10 =>
    some ({ Status := st, StatusCode := sc, Proto := pr, ProtoMajor := pj, ProtoMinor := pn,
            Header := hd, ContentLength := cl, TransferEncoding := te, Uncompressed := un }, r10)

/-- JSON white space before a value. -/
def skipSpace : Bytes → Bytes
  | [] => []
  | c :: tl => if c = 0x20 ∨ c = 0x09 ∨ c = 0x0D ∨ c = 0x0A then skipSpace tl else c :: tl

/-- A `json.Decoder` on a file: the bytes of the file and the offset up to which the
decoder has consumed them, which is what `InputOffset` returns. -/
structure Decoder where
  input : Bytes
  scanp : Nat
  deriving DecidableEq, Repr

/-- The method `Decoder.Decode`: skips white space, reads one value, and leaves the offset
right after the value. -/
def Decoder.Decode {α : Type} (parse : Bytes → Option (α × Bytes)) (dec : Decoder) :
    Option (α × Decoder) :=
  match parse (skipSpace (dec.input.drop dec.scanp)) with
  | none => none
  | some (v, rest) => some (v, { dec with scanp := dec.input.length - rest.length })

/-- The method `Decoder.InputOffset`. -/
def Decoder.InputOffset (dec : Decoder) : Nat := dec.scanp

/-- The cache entry files: the contents of the files that exist, and the paths on which
`os.Create` fails. -/
structure EntryDisk where
  files : Path → Option Bytes
  createFault : Path → Option Err

/-- The method `Encoder.Encode`: the JSON form of the value followed by a newline. -/
def Encode (json : Bytes) : Bytes := json ++ [0x0A]

/-- The method `File.Store`: the two descriptors, one per `Encode`, then the body copied
until its reader ends; a reader that fails leaves the file as far as it was written. -/
def File.Store (ed : EntryDisk) (f : File) (resp : Response) : EntryDisk × Option Err :=
  match ed.createFault f.pathname with
  | some e => (ed, some e)
  | none =>
    ({ files := fun p =>
          if p = f.pathname then
            some (Encode (appendCReq f.creq) ++ Encode (appendCRes (newCres resp))
              ++ resp.Body.data)
          else ed.files p
       createFault := ed.createFault },
     resp.Body.fault)

/-- The inner function of `File.Load`: the two `Decode` calls, and the offset that is
passed to `r.Seek`, which is `dec.InputOffset() + 1`. -/
def loadDescriptors (content : Bytes) : Option (cReq × cRes × Nat) :=
  match Decoder.Decode parseCReq { input := content, scanp := 0 } with
  | none => none
  | some (creq, dec1) =>
    match Decoder.Decode parseCRes dec1 with
    | none => none
    | some (cres, dec2) => some (creq, cres, dec2.InputOffset + 1)

/-- The method `File.Load`. The body of the response is the file read from the offset of
the `Seek` to its end. -/
def File.Load (ed : EntryDisk) (f : File) : Except Err Response :=
  match ed.files f.pathname with
  | none => Except.error (Err.pathError "open" f.pathname ENOENT)
  | some content =>
    match loadDescriptors content with
    | none => Except.error (Err.other "json: cannot decode")
    | some (creq, cres, off) =>
      Except.ok { cres.newResponse with
        Request := some (creq.Method, creq.Url)
        Body := { data := content.drop off, fault := none } }

/-- The offset of the first body byte in the file that `Store` writes. -/
def storeBodyOffset (f : File) (resp : Response) : Nat :=
  (Encode (appendCReq f.creq)).length + (Encode (appendCRes (newCres resp))).length

/-- Every key and every value of the header is valid UTF-8, and no key occurs twice. -/
def headerWellFormed (h : HeaderMap) : Bool :=
  match h with
  | none => true
  | some m =>
    decide (m.map Prod.fst).Nodup
      && m.all fun e => utf8Valid e.1 && (match e.2 with
          | none => true
          | some vs => vs.all utf8Valid)

/-- A cache entry for `GET https://google.com/`, the request of `TestCache`. -/
def sampleFile : File :=
  { creq := { Method := ascii "GET", Url := ascii "https://google.com/", Payload := none },
    pathname := ["cache", "5", "d41d8cd9"] }

/-- A response `200 OK` with the given header and body. -/
def sampleResponse (h : HeaderMap) (body : Bytes) : Response :=
  { Status := ascii "200 OK", StatusCode := 200, Proto := ascii "HTTP/1.1", ProtoMajor := 1,
    ProtoMinor := 1, Header := h, ContentLength := -1, TransferEncoding := some [ascii "chunked"],
    Uncompressed := false, Body := { data := body, fault := none }, Request := none }

/-- A disk without cache entries on which no call fails. -/
def emptyEntryDisk : EntryDisk := { files := fun _ => none, createFault := fun _ => none }

/-- A header with a value in UTF-8 and an empty value list. -/
def utf8Header : HeaderMap :=
  some [(ascii "Set-Cookie", some [ascii "a=\"1\"", [0xE3, 0x81, 0x82]]),
        (ascii "Content-Type", some [ascii "text/html"]), (ascii "Age", some [])]

/-- A header whose value is the single byte FF, as a server may send it in Latin-1. -/
def latin1Header : HeaderMap := some [(ascii "X-Name", some [[0xFF]])]

/-- A body that starts with white space and an object in JSON. -/
def jsonLikeBody : Bytes := ascii " \x7b\"a\":1\x7d\nrest"

/-- A map entry with its key and its values coerced to valid UTF-8. -/
def coerceEntry (e : Bytes × Option (List Bytes)) : Bytes × Option (List Bytes) :=
  (coerceUTF8 e.1, e.2.map (List.map coerceUTF8))

/-- What `json` reads back for a header it wrote: the entries in key order, coerced to
valid UTF-8, put into a map one by one. -/
def reloadHeader (h : HeaderMap) : HeaderMap :=
  h.map fun m => ((sortEntries m).map coerceEntry).foldl mapInsert []

/-- What `json` reads back for a `cRes` it wrote. -/
def reloadCRes (r : cRes) : cRes :=
  { Status := coerceUTF8 r.Status, StatusCode := r.StatusCode, Proto := coerceUTF8 r.Proto,
    ProtoMajor := r.ProtoMajor, ProtoMinor := r.ProtoMinor, Header := reloadHeader r.Header,
    ContentLength := r.ContentLength,
    TransferEncoding := r.TransferEncoding.map (List.map coerceUTF8),
    Uncompressed := r.Uncompressed }

/-- The response that `Load` returns for the entry that `Store` wrote for `resp`. -/
def reloadResponse (f : File) (resp : Response) : Response :=
  { (reloadCRes (newCres resp)).newResponse with
    Request := some (coerceUTF8 f.creq.Method, coerceUTF8 f.creq.Url)
    Body := { data := resp.Body.data, fault := none } }

/-- The round trip of a cache entry, as the specification states it: after a successful
`Store` of `resp`, `Load` on the same entry succeeds with the same status code, the same
values for every header key, and a body that reads exactly the stored bytes to its end,
the offset of the `Seek` being the offset of the first body byte. -/
def RoundTripExact (ed : EntryDisk) (f : File) (resp : Response) : Prop :=
  ∀ ed2, f.Store ed resp = (ed2, none) →
    ∃ resp2 content creq cres,
      f.Load ed2 = Except.ok resp2
      ∧ resp2.StatusCode = resp.StatusCode
      ∧ (∀ k, headerGet resp2.Header k = headerGet resp.Header k)
      ∧ resp2.Body = { data := resp.Body.data, fault := none }
      ∧ ed2.files f.pathname = some content
      ∧ loadDescriptors content = some (creq, cres, storeBodyOffset f resp)
      ∧ content.drop (storeBodyOffset f resp) = resp.Body.data

/-! ## `FormatInt16` is injective -/

theorem hexVal_hexDigit (d : Nat) (h : d < 16) : hexVal (hexDigit d) = d := by
  interval_cases d <;> decide

theorem hexDigit_ne_minus (d : Nat) (h : d < 16) : hexDigit d ≠ '-' := by
  interval_cases d <;> decide

theorem hexDigitsAux_acc (fuel : Nat) : ∀ n acc,
    hexDigitsAux fuel n acc = hexDigitsAux fuel n [] ++ acc := by
  induction fuel with
  | zero => intro n acc; simp [hexDigitsAux]
  | succ f ih =>
    intro n acc
    simp only [hexDigitsAux]
    split
    · simp
    · rw [ih (n / 16) (hexDigit (n % 16) :: acc), ih (n / 16) [hexDigit (n % 16)]]
      simp

theorem parseHex_append (l : List Char) (c : Char) :
    parseHex (l ++ [c]) = 16 * parseHex l + hexVal c := by
  simp [parseHex, List.foldl_append]

theorem parseHex_hexDigitsAux (fuel : Nat) : ∀ n, n < 16 ^ fuel → 0 < fuel →
    parseHex (hexDigitsAux fuel n []) = n := by
  induction fuel with
  | zero => intro n _ h; omega
  | succ f ih =>
    intro n hn _
    simp only [hexDigitsAux]
    split
    · rename_i h0
      have : n < 16 := by
        rcases Nat.lt_or_ge n 16 with h | h
        · exact h
        · have := Nat.div_pos h (by norm_num : 0 < 16); omega
      simp [parseHex, hexVal_hexDigit n this, Nat.mod_eq_of_lt this]
    · rename_i h0
      rw [hexDigitsAux_acc, parseHex_append, hexVal_hexDigit _ (Nat.mod_lt _ (by norm_num))]
      have hf : 0 < f := by
        rcases Nat.eq_zero_or_pos f with h | h
        · subst h; simp at hn; omega
        · exact h
      have hlt : n / 16 < 16 ^ f := by
        rw [Nat.div_lt_iff_lt_mul (by norm_num)]; rw [pow_succ] at hn; exact hn
      rw [ih (n / 16) hlt hf]
      omega

theorem lt_pow_succ_self16 (n : Nat) : n < 16 ^ (n + 1) :=
  lt_trans (Nat.lt_pow_self (by norm_num : 1 < 16) n) (Nat.pow_lt_pow_right (by norm_num) (by omega))

theorem hexDigitsAux_head (fuel : Nat) : ∀ n acc, 0 < fuel →
    ∃ d tl, d < 16 ∧ hexDigitsAux fuel n acc = hexDigit d :: tl := by
  induction fuel with
  | zero => intro n acc h; omega
  | succ f ih =>
    intro n acc _
    simp only [hexDigitsAux]
    split
    · exact ⟨n % 16, acc, Nat.mod_lt _ (by norm_num), rfl⟩
    · rcases Nat.eq_zero_or_pos f with h | h
      · subst h; exact ⟨n % 16, acc, Nat.mod_lt _ (by norm_num), rfl⟩
      · exact ih _ _ h

theorem parseInt16_FormatInt16 (x : Int) : parseInt16 (FormatInt16 x) = x := by
  cases x with
  | ofNat n =>
    obtain ⟨d, tl, hd, he⟩ := hexDigitsAux_head (n + 1) n [] (by omega)
    have hp := parseHex_hexDigitsAux (n + 1) n (lt_pow_succ_self16 n) (by omega)
    simp only [FormatInt16, parseInt16]
    rw [he] at hp ⊢
    have hne := hexDigit_ne_minus d hd
    split
    · rename_i h; simp at h; exact absurd h.1 hne
    · rename_i h; simp [hp]
  | negSucc n =>
    have hp := parseHex_hexDigitsAux (n + 2) (n + 1) (lt_pow_succ_self16 (n + 1)) (by omega)
    simp only [FormatInt16, parseInt16, hp]
    rfl

theorem FormatInt16_injective : Function.Injective FormatInt16 := by
  intro a b h
  have := congrArg parseInt16 h
  rwa [parseInt16_FormatInt16, parseInt16_FormatInt16] at this

/-! ## Effect of the system calls -/

theorem pathJoin_isPrefix_iff (dir : Path) (a b : String) :
    pathJoin dir a <+: pathJoin dir b ↔ a = b := by
  unfold pathJoin
  rw [List.prefix_append_right_inj]
  constructor
  · intro h
    have := List.IsPrefix.eq_of_length h (by simp)
    simpa using this
  · intro h; subst h; exact List.prefix_refl _

theorem MkdirAll_ok {d d1 : Disk} {p : Path} (h : MkdirAll d p = (d1, none)) :
    d1.dirs = (p.inits.filter fun q => q != [] && !d.dirs.contains q) ++ d.dirs
      ∧ d1.files = d.files ∧ d1.removeFault = d.removeFault ∧ d1.saveFault = d.saveFault := by
  unfold MkdirAll at h
  split at h
  · simp at h
  · split at h
    · simp at h
    · simp only [Prod.mk.injEq, and_true] at h
      subst h
      exact ⟨rfl, rfl, rfl, rfl⟩

theorem mem_MkdirAll {d d1 : Disk} {p : Path} (h : MkdirAll d p = (d1, none)) (q : Path) :
    q ∈ d1.dirs ↔ q ∈ d.dirs ∨ (q ≠ [] ∧ q <+: p) := by
  rw [(MkdirAll_ok h).1]
  by_cases hq : q ∈ d.dirs <;> simp [hq, List.mem_filter, List.mem_inits]
  tauto

theorem removeEach_ok : ∀ (l : List Tx) {d d1 : Disk}, removeEach d l = (d1, none) →
    d1.dirs = d.dirs.filter (fun q => l.all fun t => !t.dir.isPrefixOf q)
      ∧ d1.saveFault = d.saveFault := by
  intro l
  induction l with
  | nil => intro d d1 h; simp [removeEach] at h; subst h; simp
  | cons t ts ih =>
    intro d d1 h
    simp only [removeEach, RemoveAll] at h
    split at h
    · rename_i d2 e heq
      simp at h
    · rename_i d2 heq
      split at heq
      · simp at heq
      · simp only [Prod.mk.injEq, and_true] at heq
        subst heq
        obtain ⟨h1, h2⟩ := ih h
        refine ⟨?_, h2⟩
        rw [h1]
        simp only [List.filter_filter, List.all_cons]
        congr 1
        funext q
        exact Bool.and_comm _ _

theorem mem_removeEach {l : List Tx} {d d1 : Disk} (h : removeEach d l = (d1, none)) (q : Path) :
    q ∈ d1.dirs ↔ q ∈ d.dirs ∧ ∀ t ∈ l, ¬ t.dir <+: q := by
  rw [(removeEach_ok l h).1]
  simp only [List.mem_filter, List.all_eq_true, Bool.not_eq_true', and_congr_right_iff]
  intro _
  constructor
  · intro hx t ht hp
    have := hx t ht
    rw [List.isPrefixOf_iff_prefix.mpr hp] at this
    exact absurd this (by simp)
  · intro hx t ht
    cases hb : t.dir.isPrefixOf q with
    | false => rfl
    | true => exact absurd (List.isPrefixOf_iff_prefix.mp hb) (hx t ht)

theorem jsonbSave_ok {d d1 : Disk} {p : Path} {rec : CtlRecord}
    (h : jsonbSave d p rec = (d1, none)) : d1.dirs = d.dirs ∧ d1.files p = some rec := by
  unfold jsonbSave at h
  split at h
  · simp at h
  · split at h
    · simp only [Prod.mk.injEq, and_true] at h
      subst h
      simp
    · split_ifs at h <;> simp at h

theorem insertFront_eq (trans : List Tx) (zero newtx : Tx) :
    insertFront trans zero newtx = newtx :: trans := by
  cases trans with
  | nil => rfl
  | cons x xs => simp [insertFront, copyShift, List.take_append_eq_append_take]

/-- What a successful `NewTransaction` did, for a retention count that is not negative. -/
theorem NewTransaction_ok {c c1 : Cache} {d d3 : Disk} {ms : Int} {stamp : String} {t : Tx}
    (hn : 0 ≤ c.numTx) (h : c.NewTransaction d ms stamp = (c1, d3, Except.ok t)) :
    t = mkTx c.dir (ms, stamp)
      ∧ c1 = { c with Trans := (t :: c.Trans).take c.numTx.toNat }
      ∧ ∃ d1 d2, MkdirAll d t.dir = (d1, none)
          ∧ removeEach d1 ((t :: c.Trans).drop c.numTx.toNat) = (d2, none)
          ∧ jsonbSave d2 (pathJoin c.dir ctlname) c1.toRecord = (d3, none) := by
  unfold Cache.NewTransaction at h
  simp only [newTx, insertFront_eq] at h
  split at h
  · simp at h
  · rename_i d1 newtx hmk
    split at hmk
    · simp at hmk
    · rename_i d1a hmk1
      simp only [Prod.mk.injEq, Except.ok.injEq] at hmk
      obtain ⟨hd, ht⟩ := hmk
      subst hd
      split at h
      · simp at h
      · rename_i c2 d2 _ hdis
        split at h
        · simp at h
        · rename_i d3a hsave
          simp only [Prod.mk.injEq, Except.ok.injEq] at h
          obtain ⟨hc, hd3, hnt⟩ := h
          subst hc hd3 hnt
          have htx : newtx = mkTx c.dir (ms, stamp) := by rw [← ht]; rfl
          have hdir : newtx.dir = pathJoin c.dir (FormatInt16 ms) := by rw [← ht]
          refine ⟨htx, ?_⟩
          unfold Cache.discard at hdis
          simp only at hdis
          split at hdis
          · rename_i hle
            simp only [Prod.mk.injEq, and_true] at hdis
            obtain ⟨hc2, hd2⟩ := hdis
            subst hc2 hd2
            have hlen : (newtx :: c.Trans).length ≤ c.numTx.toNat := by
              have := hle; simp only [List.length_cons] at this ⊢; omega
            refine ⟨by simp [List.take_of_length_le hlen], d1a, d1a, ?_, ?_, ?_⟩
            · rw [hdir]; exact hmk1
            · rw [List.drop_of_length_le hlen]; rfl
            · exact hsave
          · split at hdis
            · simp at hdis
            · split at hdis
              · simp at hdis
              · rename_i d2a hrem
                simp only [Prod.mk.injEq, and_true] at hdis
                obtain ⟨hc2, hd2⟩ := hdis
                subst hc2 hd2
                refine ⟨rfl, d1a, d2a, ?_, hrem, hsave⟩
                rw [hdir]; exact hmk1

/-! ## Retention -/

theorem mkTx_dir_isPrefix {dir : Path} {a b : Int × String}
    (h : (mkTx dir a).dir <+: (mkTx dir b).dir) : a.1 = b.1 := by
  simp only [mkTx] at h
  exact FormatInt16_injective ((pathJoin_isPrefix_iff _ _ _).mp h)

theorem mkTx_dir_eq_of_fst {dir : Path} {a b : Int × String} (h : a.1 = b.1) :
    (mkTx dir a).dir = (mkTx dir b).dir := by
  simp only [mkTx, h]

theorem mem_drop_append_right {α : Type} (l1 l2 : List α) (n : Nat) (a : α)
    (h : a ∈ l2.drop n) : a ∈ (l1 ++ l2).drop n := by
  rw [List.drop_append_eq_append_drop]
  apply List.mem_append_right
  have hsplit : l2.drop n = (l2.drop (n - l1.length)).drop (n - (n - l1.length)) := by
    rw [List.drop_drop]; congr 1; omega
  rw [hsplit] at h
  exact List.mem_of_mem_drop h

theorem take_succ_split {α : Type} (l : List α) (M : Nat) :
    l.take (M + 1) = l.take M ++ (l.take (M + 1)).drop M := by
  have h := List.take_append_drop M (l.take (M + 1))
  rw [List.take_take, Nat.min_eq_left (Nat.le_succ M)] at h
  exact h.symm

/-- One successful `NewTransaction` in the course of a run keeps the invariant. -/
theorem RetInv_step {dir : Path} {M : Nat} {clk pre rest : List (Int × String)}
    {c c1 : Cache} {d d3 : Disk} {x : Int × String} {t : Tx}
    (hclk : clk = pre ++ x :: rest) (hapart : RetainedApart (M + 1) clk)
    (hinv : RetInv dir (M + 1) clk pre c d)
    (h : c.NewTransaction d x.1 x.2 = (c1, d3, Except.ok t)) :
    RetInv dir (M + 1) clk (pre ++ [x]) c1 d3 := by
  obtain ⟨hdir, hnum, htrans, hkeep, hgone, _⟩ := hinv
  obtain ⟨ht, hc1, d1, d2, hmk, hrem, hsave⟩ := NewTransaction_ok (by rw [hnum]; omega) h
  have htx : t = mkTx dir x := by rw [ht, hdir]
  have hnat : c.numTx.toNat = M + 1 := by rw [hnum]; simp
  rw [hnat] at hc1 hrem
  -- the sequence after the call
  have htr1 : c1.Trans = mkTx dir x :: (pre.reverse.take M).map (mkTx dir) := by
    rw [hc1]
    simp only [List.take_succ_cons, htrans, htx]
    rw [← List.map_take, List.take_take, Nat.min_eq_left (Nat.le_succ M)]
  -- the transaction evicted by the call, if any
  have hev : (t :: c.Trans).drop (M + 1) = ((pre.reverse.take (M + 1)).drop M).map (mkTx dir) := by
    simp only [List.drop_succ_cons, htrans, List.map_drop]
  rw [hev] at hrem
  have hdirs3 : ∀ q, q ∈ d3.dirs ↔ (q ∈ d.dirs ∨ (q ≠ [] ∧ q <+: t.dir))
      ∧ ∀ w ∈ (pre.reverse.take (M + 1)).drop M, ¬ (mkTx dir w).dir <+: q := by
    intro q
    rw [(jsonbSave_ok hsave).1, mem_removeEach hrem, mem_MkdirAll hmk]
    simp only [List.mem_map, forall_exists_index, and_imp, forall_apply_eq_imp_iff₂]
  -- whatever is evicted now is evicted at the end of the run
  have hevE : ∀ w ∈ (pre.reverse.take (M + 1)).drop M, w ∈ clk.reverse.drop (M + 1) := by
    intro w hw
    have h1 : w ∈ pre.reverse.drop M := by
      have := List.mem_of_mem_drop hw
      have hs : pre.reverse = pre.reverse.take M ++ pre.reverse.drop M :=
        (List.take_append_drop M _).symm
      rw [take_succ_split] at hw
      rw [List.drop_append_eq_append_drop, List.mem_append] at hw
      rcases hw with hw | hw
      · rw [List.drop_of_length_le (by rw [List.length_take]; exact Nat.min_le_left _ _)] at hw
        simp at hw
      · rw [List.length_take] at hw
        have hw2 := List.mem_of_mem_drop hw
        have hw3 := List.mem_of_mem_drop hw2
        rw [List.drop_take] at hw2
        exact List.mem_of_mem_take hw2
    have h2 : w ∈ (x :: pre.reverse).drop (M + 1) := by simpa using h1
    have hrev : clk.reverse = rest.reverse ++ (x :: pre.reverse) := by
      rw [hclk]; simp
    rw [hrev]
    exact mem_drop_append_right _ _ _ _ h2
  refine ⟨by rw [hc1]; exact hdir, by rw [hc1]; exact hnum, ?_, ?_, ?_, ?_⟩
  · rw [htr1]; simp [List.take_succ_cons]
  · intro r hrR hrmem
    rw [hdirs3]
    constructor
    · rcases List.mem_append.mp hrmem with hr | hr
      · exact Or.inl (hkeep r hrR hr)
      · right
        simp only [List.mem_singleton] at hr
        subst hr
        rw [htx]
        exact ⟨by simp [mkTx, pathJoin], List.prefix_refl _⟩
    · intro w hw hp
      exact hapart r hrR w (hevE w hw) (mkTx_dir_isPrefix hp).symm
  · intro e hemem hwin
    simp only [List.reverse_append, List.reverse_cons, List.reverse_nil, List.nil_append,
      List.singleton_append, List.take_succ_cons, List.mem_cons, forall_eq_or_imp] at hwin
    obtain ⟨hxe, hwinM⟩ := hwin
    have hepre : e ∈ pre := by
      rcases List.mem_append.mp hemem with he | he
      · exact he
      · simp only [List.mem_singleton] at he
        exact absurd (by rw [he]) hxe
    rw [hdirs3]
    intro hcon
    rcases hcon.1 with hin | ⟨_, hp⟩
    · -- the directory was there before: the millisecond is in the old window
      have hnot : ¬ ∀ r ∈ pre.reverse.take (M + 1), r.1 ≠ e.1 := fun hall =>
        hgone e hepre hall hin
      push_neg at hnot
      obtain ⟨r, hr, hre⟩ := hnot
      rw [take_succ_split, List.mem_append] at hr
      rcases hr with hr | hr
      · exact hwinM r hr hre
      · exact hcon.2 r hr (by rw [mkTx_dir_eq_of_fst hre])
    · rw [htx] at hp
      have hlen : ((mkTx dir e).dir).length = ((mkTx dir x).dir).length := by
        simp [mkTx, pathJoin]
      have heq := List.IsPrefix.eq_of_length hp hlen
      have hp2 : (mkTx dir x).dir <+: (mkTx dir e).dir := by rw [heq]
      exact hxe (mkTx_dir_isPrefix hp2)
  · intro _
    rw [← hdir, (jsonbSave_ok hsave).2]
    simp only [Cache.toRecord, htr1, List.reverse_append, List.reverse_cons, List.reverse_nil,
      List.nil_append, List.singleton_append, List.take_succ_cons, List.map_cons, List.map_map]
    rfl

theorem RetInv_run {dir : Path} {M : Nat} {clk : List (Int × String)}
    (hapart : RetainedApart (M + 1) clk) : ∀ (rest pre : List (Int × String))
    (c c1 : Cache) (d d1 : Disk), clk = pre ++ rest → RetInv dir (M + 1) clk pre c d →
    runNew c d rest = (c1, d1, Except.ok ()) → RetInv dir (M + 1) clk (pre ++ rest) c1 d1 := by
  intro rest
  induction rest with
  | nil =>
    intro pre c c1 d d1 _ hinv h
    simp only [runNew, Prod.mk.injEq, and_true] at h
    obtain ⟨hc, hd⟩ := h
    subst hc hd
    simpa using hinv
  | cons x rest ih =>
    intro pre c c1 d d1 hclk hinv h
    obtain ⟨ms, stamp⟩ := x
    simp only [runNew] at h
    split at h
    · simp at h
    · rename_i c2 d2 t hstep
      have hinv2 := RetInv_step hclk hapart hinv hstep
      have := ih (pre ++ [(ms, stamp)]) c2 c1 d2 d1 (by rw [hclk]; simp) hinv2 h
      simpa using this

/-- Clock readings that are pairwise distinct keep the retained transactions apart from
the evicted ones. -/
theorem retainedApart_of_nodup (N : Nat) (clk : List (Int × String))
    (hnd : (clk.map Prod.fst).Nodup) : RetainedApart N clk := by
  intro r hr e he
  have hnd2 : (clk.reverse.map Prod.fst).Nodup := by
    rw [List.map_reverse]; exact List.nodup_reverse.mpr hnd
  rw [← List.take_append_drop N clk.reverse, List.map_append, List.nodup_append] at hnd2
  intro heq
  exact hnd2.2.2 (List.mem_map_of_mem Prod.fst hr) (heq ▸ List.mem_map_of_mem Prod.fst he)

/-- C1 (as amended): for a retention count `N ≥ 1` and `N + k` calls of `NewTransaction`
on an empty cache, where no retained transaction is created in the same millisecond as an
evicted one (as when all clock readings differ), if every call succeeds then the sequence
holds exactly the `N` newest transactions newest first, the control file lists them in
that order, their directories exist and the directory of every evicted transaction is
gone. -/
theorem retention_when_retained_apart (dir : Path) (N k : Nat) (clk : List (Int × String))
    (d0 : Disk) (hN : 1 ≤ N) (hlen : clk.length = N + k) (hapart : RetainedApart N clk) :
    RetentionHolds dir N clk d0 := by
  intro hok
  obtain ⟨M, rfl⟩ : ∃ M, N = M + 1 := ⟨N - 1, by omega⟩
  have hinv0 : RetInv dir (M + 1) clk []
      { dir := dir, numTx := ((M + 1 : Nat) : Int), Trans := [] } d0 := by
    refine ⟨rfl, rfl, by simp, by simp, by simp, by simp⟩
  have hrun : runNew { dir := dir, numTx := ((M + 1 : Nat) : Int), Trans := [] } d0 clk
      = ((runNew { dir := dir, numTx := ((M + 1 : Nat) : Int), Trans := [] } d0 clk).1,
         (runNew { dir := dir, numTx := ((M + 1 : Nat) : Int), Trans := [] } d0 clk).2.1,
         Except.ok ()) := by
    rw [← hok]
  have hinv := RetInv_run hapart clk [] _ _ d0 _ (by simp) hinv0 hrun
  simp only [List.nil_append] at hinv
  obtain ⟨_, _, htrans, hkeep, hgone, hctl⟩ := hinv
  have hne : clk ≠ [] := by
    intro h; rw [h] at hlen; simp at hlen; omega
  refine ⟨htrans, ?_, hctl hne, ?_, ?_⟩
  · rw [htrans, List.length_map, List.length_take, List.length_reverse, hlen]
    omega
  · intro r hr
    exact hkeep r hr (List.mem_reverse.mp (List.mem_of_mem_take hr))
  · intro e he
    exact hgone e (List.mem_reverse.mp (List.mem_of_mem_drop he)) (fun r hr => hapart r hr e he)

/-- C1, the scenario of the specification: retention 3 and four transactions created at the
milliseconds 1, 2, 3, 4 leave `[t4, t3, t2]` in memory and in the control file, and the
directory of `t1` is removed. -/
theorem retention_when_retained_apart_witness :
    (runNew { dir := ["cache"], numTx := 3, Trans := [] } (Disk.plain [] fun _ => none)
        [(1, "s1"), (2, "s2"), (3, "s3"), (4, "s4")]).2.2 = Except.ok ()
    ∧ (runNew { dir := ["cache"], numTx := 3, Trans := [] } (Disk.plain [] fun _ => none)
        [(1, "s1"), (2, "s2"), (3, "s3"), (4, "s4")]).1.Trans
        = [mkTx ["cache"] (4, "s4"), mkTx ["cache"] (3, "s3"), mkTx ["cache"] (2, "s2")]
    ∧ ["cache", "1"] ∉ (runNew { dir := ["cache"], numTx := 3, Trans := [] }
        (Disk.plain [] fun _ => none) [(1, "s1"), (2, "s2"), (3, "s3"), (4, "s4")]).2.1.dirs
    ∧ RetentionHolds ["cache"] 3 [(1, "s1"), (2, "s2"), (3, "s3"), (4, "s4")]
        (Disk.plain [] fun _ => none) :=
  ⟨by decide, by decide, by decide,
    retention_when_retained_apart ["cache"] 3 1 [(1, "s1"), (2, "s2"), (3, "s3"), (4, "s4")]
      (Disk.plain [] fun _ => none) (by decide) (by decide)
      (by
        intro r hr e he
        simp only [List.reverse_cons, List.reverse_nil, List.nil_append, List.cons_append,
          List.take_succ_cons, List.take_zero, List.drop_succ_cons, List.drop_zero,
          List.mem_cons, List.mem_singleton, List.not_mem_nil, or_false] at hr he
        subst he
        rcases hr with h | h | h <;> subst h <;> decide)⟩

/-- C1 as stated fails: with retention 1, two transactions created within the same
millisecond get the same name and directory, both calls succeed, and evicting the older one
removes the directory of the retained one. -/
theorem retention_same_millisecond_counterexample :
    ¬ RetentionHolds ["cache"] 1 [(5, "s1"), (5, "s2")] (Disk.plain [] fun _ => none) := by
  intro h
  have h4 := (h (by decide)).2.2.2.1 (5, "s2") (by decide)
  revert h4
  decide

/-! ## `New`, `GetLastTransaction`, `GetTransaction` -/

theorem RemoveAll_files (d : Disk) (q p : Path) :
    (RemoveAll d q).1.files p = d.files p ∨ (RemoveAll d q).1.files p = none := by
  unfold RemoveAll
  split
  · exact Or.inl rfl
  · simp only
    split_ifs
    · exact Or.inr rfl
    · exact Or.inl rfl

theorem removeEach_files : ∀ (l : List Tx) (d : Disk) (p : Path),
    (removeEach d l).1.files p = d.files p ∨ (removeEach d l).1.files p = none := by
  intro l
  induction l with
  | nil => intro d p; exact Or.inl rfl
  | cons t ts ih =>
    intro d p
    have h1 := RemoveAll_files d t.dir p
    simp only [removeEach]
    split
    · rename_i d1 e heq
      rw [heq] at h1
      exact h1
    · rename_i d1 heq
      rw [heq] at h1
      rcases ih d1 p with h2 | h2
      · rcases h1 with h1 | h1
        · exact Or.inl (h2.trans h1)
        · exact Or.inr (h2.trans h1)
      · exact Or.inr h2

theorem discard_files (c : Cache) (d : Disk) (p : Path) :
    (c.discard d).2.1.files p = d.files p ∨ (c.discard d).2.1.files p = none := by
  unfold Cache.discard
  split_ifs
  · exact Or.inl rfl
  · exact Or.inl rfl
  · have h := removeEach_files (c.Trans.drop c.numTx.toNat) d p
    split
    · rename_i d1 e heq
      rw [heq] at h
      exact h
    · rename_i d1 heq
      rw [heq] at h
      exact h

/-- C6: `New` never writes a file: every file it leaves on disk has the content it had
before. On a root whose control file lists three transactions `c, b, a`, with retention
count 1, it succeeds, keeps `c` in memory and removes the directories of `b` and `a`, but
the control file still lists all three: `New` does not call `saveCtlFile`. -/
theorem New_leaves_control_file_untrimmed :
    (∀ (d : Disk) (dir : Path) (numTx : Int) (p : Path),
        (New d dir numTx).1.files p = d.files p ∨ (New d dir numTx).1.files p = none)
    ∧ (New threeOnDisk ["cache"] 1).2
        = Except.ok { dir := ["cache"], numTx := 1,
                      Trans := [{ Name := "c", CreateAt := "s3", dir := ["cache", "c"] }] }
    ∧ (New threeOnDisk ["cache"] 1).1.dirs = [["cache"], ["cache", "c"]]
    ∧ (New threeOnDisk ["cache"] 1).1.files ["cache", "cache.json"]
        = some [("c", "s3"), ("b", "s2"), ("a", "s1")] := by
  refine ⟨?_, by decide, by decide, by decide⟩
  intro d dir numTx p
  unfold New
  simp only
  split_ifs
  · exact Or.inl rfl
  · have h := discard_files
      (({ dir := dir, numTx := numTx, Trans := [] } : Cache).loadCtlFile d).1 d p
    split
    · rename_i c2 d2 f heq
      rw [heq] at h
      exact h
    · rename_i c2 d2 u heq
      rw [heq] at h
      exact h

/-- C7: `GetLastTransaction` never returns an error. On an empty cache, when the directory
cannot be created it indexes the empty sequence, and when the control file cannot be
written it returns the new transaction with a nil error. -/
theorem GetLastTransaction_drops_error :
    (∀ (c : Cache) (d : Disk) (ms : Int) (stamp : String) (e : Err),
        (c.GetLastTransaction d ms stamp).2.2 ≠ Except.error (Fail.error e))
    ∧ ({ dir := ["cache"], numTx := 3, Trans := [] } : Cache).NewTransaction noMkdirDisk 5 "s"
        = ({ dir := ["cache"], numTx := 3, Trans := [] }, noMkdirDisk,
            Except.error (Fail.error (Err.errno "EACCES")))
    ∧ (({ dir := ["cache"], numTx := 3, Trans := [] } : Cache).GetLastTransaction
          noMkdirDisk 5 "s").2.2 = Except.error (Fail.crash "index out of range")
    ∧ (({ dir := ["cache"], numTx := 3, Trans := [] } : Cache).NewTransaction
          noSaveDisk 5 "s").2.2 = Except.error (Fail.error (Err.errno "ENOSPC"))
    ∧ (({ dir := ["cache"], numTx := 3, Trans := [] } : Cache).GetLastTransaction
          noSaveDisk 5 "s").2.2 = Except.ok (mkTx ["cache"] (5, "s")) := by
  refine ⟨?_, rfl, by decide, by decide, by decide⟩
  intro c d ms stamp e h
  unfold Cache.GetLastTransaction at h
  simp only at h
  split at h <;> simp at h

/-- C8: with a positive retention count, `GetLastTransaction` on an empty sequence whose
`NewTransaction` succeeds leaves exactly that one transaction in the sequence and returns
it; on a non-empty sequence it returns the front element and changes neither the cache nor
the disk. -/
theorem GetLastTransaction_lazy (c : Cache) (d : Disk) (ms : Int) (stamp : String)
    (hpos : 0 < c.numTx) :
    (∀ t, c.Trans = [] → (c.NewTransaction d ms stamp).2.2 = Except.ok t →
        (c.GetLastTransaction d ms stamp).1.Trans = [t]
        ∧ (c.GetLastTransaction d ms stamp).2.2 = Except.ok t)
    ∧ (∀ t ts, c.Trans = t :: ts →
        (c.GetLastTransaction d ms stamp).1 = c
        ∧ (c.GetLastTransaction d ms stamp).2.1 = d
        ∧ (c.GetLastTransaction d ms stamp).2.2 = Except.ok t) := by
  constructor
  · intro t hnil hok
    have hrun : c.NewTransaction d ms stamp
        = ((c.NewTransaction d ms stamp).1, (c.NewTransaction d ms stamp).2.1, Except.ok t) := by
      rw [← hok]
    obtain ⟨_, hc1, _⟩ := NewTransaction_ok (le_of_lt hpos) hrun
    have hone : 1 ≤ c.numTx.toNat := by omega
    have htr : (c.NewTransaction d ms stamp).1.Trans = [t] := by
      rw [hc1, hnil]
      obtain ⟨m, hm⟩ : ∃ m, c.numTx.toNat = m + 1 := ⟨c.numTx.toNat - 1, by omega⟩
      simp [hm]
    unfold Cache.GetLastTransaction
    simp only [hnil, List.length_nil, if_true, htr]
    exact ⟨trivial, trivial⟩
  · intro t ts hcons
    unfold Cache.GetLastTransaction
    simp [hcons]

/-- C8 on concrete caches: an empty cache with retention 3 gets one transaction, a cache
holding `[t]` is left as it is. -/
theorem GetLastTransaction_lazy_witness :
    ((({ dir := ["cache"], numTx := 3, Trans := [] } : Cache).GetLastTransaction
          (Disk.plain [] fun _ => none) 5 "s").1.Trans = [mkTx ["cache"] (5, "s")]
      ∧ (({ dir := ["cache"], numTx := 3, Trans := [] } : Cache).GetLastTransaction
          (Disk.plain [] fun _ => none) 5 "s").2.2 = Except.ok (mkTx ["cache"] (5, "s")))
    ∧ (({ dir := ["cache"], numTx := 3, Trans := [mkTx ["cache"] (4, "r")] } : Cache).GetLastTransaction
          (Disk.plain [] fun _ => none) 5 "s").2.2 = Except.ok (mkTx ["cache"] (4, "r")) :=
  ⟨(GetLastTransaction_lazy { dir := ["cache"], numTx := 3, Trans := [] }
      (Disk.plain [] fun _ => none) 5 "s" (by decide)).1 (mkTx ["cache"] (5, "s")) rfl
      (by decide),
   ((GetLastTransaction_lazy { dir := ["cache"], numTx := 3, Trans := [mkTx ["cache"] (4, "r")] }
      (Disk.plain [] fun _ => none) 5 "s" (by decide)).2 (mkTx ["cache"] (4, "r")) [] rfl).2.2⟩

theorem findTx_some {name : String} : ∀ {l : List Tx} {t : Tx}, findTx name l = some t →
    t.Name = name ∧ ∃ pre post, l = pre ++ t :: post ∧ ∀ u ∈ pre, u.Name ≠ name := by
  intro l
  induction l with
  | nil => intro t h; simp [findTx] at h
  | cons x xs ih =>
    intro t h
    simp only [findTx] at h
    split at h
    · rename_i hx
      simp only [Option.some.injEq] at h
      subst h
      exact ⟨hx, [], xs, rfl, by simp⟩
    · rename_i hx
      obtain ⟨h1, pre, post, h2, h3⟩ := ih h
      refine ⟨h1, x :: pre, post, by rw [h2]; rfl, ?_⟩
      intro u hu
      rcases List.mem_cons.mp hu with hu | hu
      · rw [hu]; exact hx
      · exact h3 u hu

theorem findTx_none {name : String} : ∀ {l : List Tx}, findTx name l = none →
    ∀ u ∈ l, u.Name ≠ name := by
  intro l
  induction l with
  | nil => intro _ u hu; simp at hu
  | cons x xs ih =>
    intro h u hu
    simp only [findTx] at h
    split at h
    · simp at h
    · rename_i hx
      rcases List.mem_cons.mp hu with hu | hu
      · rw [hu]; exact hx
      · exact ih h u hu

/-- C9: `GetTransaction name` succeeds exactly when some transaction of the sequence has
that name; it then returns the first such transaction; otherwise it returns an error that
wraps `errNoSuchTx`; in both cases the cache is unchanged. -/
theorem GetTransaction_lookup (c : Cache) (name : String) :
    ((∃ t, (c.GetTransaction name).2 = Except.ok t) ↔ ∃ u ∈ c.Trans, u.Name = name)
    ∧ (∀ t, (c.GetTransaction name).2 = Except.ok t →
        t.Name = name ∧ ∃ pre post, c.Trans = pre ++ t :: post ∧ ∀ u ∈ pre, u.Name ≠ name)
    ∧ ((¬ ∃ u ∈ c.Trans, u.Name = name) →
        ∃ e, (c.GetTransaction name).2 = Except.error (Fail.error e)
          ∧ e.is errNoSuchTx = true ∧ e.unwrap = some errNoSuchTx)
    ∧ (c.GetTransaction name).1 = c := by
  unfold Cache.GetTransaction
  cases hf : findTx name c.Trans with
  | some t =>
    obtain ⟨h1, pre, post, h2, h3⟩ := findTx_some hf
    have hmem : t ∈ c.Trans := by rw [h2]; simp
    refine ⟨⟨fun _ => ⟨t, hmem, h1⟩, fun _ => ⟨t, rfl⟩⟩, ?_, ?_, rfl⟩
    · intro t2 ht2
      simp only [Except.ok.injEq] at ht2
      subst ht2
      exact ⟨h1, pre, post, h2, h3⟩
    · intro hno
      exact absurd ⟨t, hmem, h1⟩ hno
  | none =>
    have hn := findTx_none hf
    refine ⟨⟨fun h => ?_, fun h => ?_⟩, ?_, ?_, rfl⟩
    · obtain ⟨t, ht⟩ := h
      simp at ht
    · obtain ⟨u, hu, hname⟩ := h
      exact absurd hname (hn u hu)
    · intro t ht
      simp at ht
    · intro _
      exact ⟨_, rfl, by simp [Err.is, errNoSuchTx], rfl⟩

/-! ## The access gate -/

/-- C3: a `Lock` that returns `Cancel` leaves `mu` locked, and since the cancelled caller
does not unlock, every later `Lock` on that gate blocks. Checked on the gate of `TestMutex`
(interval 1 s, `next` at 3.5 s) with a `Lock` at 2.6 s cancelled at 3 s. -/
theorem Lock_cancel_keeps_gate_held :
    (∀ (m : Mutex) (now : Nat) (cancelAt : Option Int) (pick : Bool) (t : Int),
        (m.Lock now cancelAt pick).2 = LockOutcome.cancelled t →
          (m.Lock now cancelAt pick).1.mu = true
          ∧ ∀ (now2 : Nat) (cancelAt2 : Option Int) (pick2 : Bool),
              ((m.Lock now cancelAt pick).1.Lock now2 cancelAt2 pick2).2 = LockOutcome.blocked)
    ∧ ({ d := 1000000000, next := 3500000000, mu := false } : Mutex).Lock 2600000000
          (some 3000000000) false
        = ({ d := 1000000000, next := 3500000000, mu := true },
            LockOutcome.cancelled 3000000000)
    ∧ ({ d := 1000000000, next := 3500000000, mu := true } : Mutex).Lock 4000000000 none false
        = ({ d := 1000000000, next := 3500000000, mu := true }, LockOutcome.blocked) := by
  refine ⟨?_, by decide, by decide⟩
  intro m now cancelAt pick t h
  have hmu : (m.Lock now cancelAt pick).1.mu = true := by
    unfold Mutex.Lock at h ⊢
    cases hm : m.mu with
    | true => simp [hm] at h
    | false =>
      simp only [hm, Bool.false_eq_true, if_false]
      cases cancelAt with
      | none => rfl
      | some tc => simp only; split_ifs <;> rfl
  refine ⟨hmu, ?_⟩
  intro now2 cancelAt2 pick2
  generalize m.Lock now cancelAt pick = r at hmu
  simp [Mutex.Lock, hmu]

theorem runRounds_spacing : ∀ (rounds : List Round) (m : Mutex) (log : List Int) (m3 : Mutex),
    m.mu = false → runRounds m rounds = some (log, m3) →
    log.length = rounds.length ∧ m3.mu = false ∧ m3.d = m.d
    ∧ (∀ r rest, rounds = r :: rest → log.head? = some ((r.lockNow : Int) + max 0 (m.next - r.lockNow)))
    ∧ (∀ i r t, rounds.get? i = some r → log.get? (i + 1) = some t → (r.unlockNow : Int) + m.d ≤ t) := by
  intro rounds
  induction rounds with
  | nil =>
    intro m log m3 hmu h
    simp only [runRounds, Option.some.injEq, Prod.mk.injEq] at h
    obtain ⟨h1, h2⟩ := h
    subst h1 h2
    simp [hmu]
  | cons r rest ih =>
    intro m log m3 hmu h
    simp only [runRounds] at h
    split at h
    · rename_i m1 t hlock
      split at h
      · rename_i m2 hun
        split at h
        · rename_i ts m3a hrest
          simp only [Option.some.injEq, Prod.mk.injEq] at h
          obtain ⟨h1, h2⟩ := h
          subst h1 h2
          have hm1 : m1 = { m with mu := true }
              ∧ t = (r.lockNow : Int) + max 0 (m.next - r.lockNow) := by
            unfold Mutex.Lock at hlock
            simp only [hmu, Bool.false_eq_true, if_false] at hlock
            cases hc : r.cancelAt with
            | none =>
              simp only [hc, Prod.mk.injEq, LockOutcome.admitted.injEq] at hlock
              exact ⟨hlock.1.symm, hlock.2.symm⟩
            | some tc =>
              simp only [hc] at hlock
              split_ifs at hlock <;>
                simp only [Prod.mk.injEq, LockOutcome.admitted.injEq, reduceCtorEq, and_false] at hlock
              all_goals exact ⟨hlock.1.symm, hlock.2.symm⟩
          obtain ⟨hm1a, ht⟩ := hm1
          have hm2 : m2 = { m1 with next := (r.unlockNow : Int) + m1.d, mu := false } := by
            unfold Mutex.Unlock at hun
            split_ifs at hun
            simp only [Option.some.injEq] at hun
            exact hun.symm
          have hm2mu : m2.mu = false := by rw [hm2]
          have hm2d : m2.d = m.d := by rw [hm2, hm1a]
          have hm2n : m2.next = (r.unlockNow : Int) + m.d := by rw [hm2, hm1a]
          obtain ⟨hlen, hmu3, hd3, hhead, hgap⟩ := ih m2 ts _ hm2mu hrest
          refine ⟨by simp [hlen], hmu3, by rw [hd3, hm2d], ?_, ?_⟩
          · intro r2 rest2 heq
            simp only [List.cons.injEq] at heq
            rw [← heq.1]
            simp [ht]
          · intro i r2 t2 hr2 ht2
            cases i with
            | zero =>
              simp only [List.get?_cons_zero, Option.some.injEq] at hr2
              subst hr2
              simp only [zero_add, List.get?_cons_succ] at ht2
              cases rest with
              | nil =>
                simp only [runRounds, Option.some.injEq, Prod.mk.injEq] at hrest
                rw [← hrest.1] at ht2
                simp at ht2
              | cons r3 rest3 =>
                have hh := hhead r3 rest3 rfl
                cases ts with
                | nil => simp at ht2
                | cons t3 ts3 =>
                  simp only [List.head?_cons, Option.some.injEq] at hh
                  simp only [List.get?_cons_zero, Option.some.injEq] at ht2
                  rw [← ht2, hh, hm2n]
                  omega
            | succ j =>
              simp only [List.get?_cons_succ] at hr2 ht2
              have := hgap j r2 t2 hr2 ht2
              rw [hm2d] at this
              exact this
        · simp at h
      · simp at h
    · simp at h

theorem runRounds_total : ∀ (rounds : List Round) (m : Mutex), m.mu = false →
    (∀ r ∈ rounds, r.cancelAt = none) → (runRounds m rounds).isSome = true := by
  intro rounds
  induction rounds with
  | nil => intro m _ _; rfl
  | cons r rest ih =>
    intro m hmu hc
    have hr : r.cancelAt = none := hc r (List.mem_cons_self _ _)
    have hrest := ih { m with next := (r.unlockNow : Int) + m.d, mu := false } rfl
      (fun r2 h2 => hc r2 (List.mem_cons_of_mem _ h2))
    simp only [runRounds, Mutex.Lock, hmu, Bool.false_eq_true, if_false, hr, Mutex.Unlock, if_true]
    cases hrun : runRounds { m with next := (r.unlockNow : Int) + m.d, mu := false } rest with
    | none => rw [hrun] at hrest; simp at hrest
    | some p => rfl

/-- C4: on a fresh gate with interval `d`, a sequence of `Lock`/`Unlock` pairs whose `Lock`s
are not cancelled runs to its end; and whenever every `Lock` of a sequence is admitted, the
first is admitted at the very instant it read the clock, and each later one is admitted no
earlier than the preceding `Unlock` instant plus `d`. -/
theorem gate_spacing (d : Int) (rounds : List Round) :
    ((∀ r ∈ rounds, r.cancelAt = none) → (runRounds (Mutex.New d) rounds).isSome = true)
    ∧ ∀ (log : List Int) (m3 : Mutex), runRounds (Mutex.New d) rounds = some (log, m3) →
        log.length = rounds.length
        ∧ (∀ r rest, rounds = r :: rest → log.head? = some (r.lockNow : Int))
        ∧ (∀ i r t, rounds.get? i = some r → log.get? (i + 1) = some t →
            (r.unlockNow : Int) + d ≤ t) := by
  refine ⟨runRounds_total rounds (Mutex.New d) rfl, ?_⟩
  intro log m3 h
  obtain ⟨hlen, _, _, hhead, hgap⟩ := runRounds_spacing rounds (Mutex.New d) log m3 rfl h
  refine ⟨hlen, ?_, hgap⟩
  intro r rest heq
  rw [hhead r rest heq]
  simp only [Mutex.New]
  congr 1
  omega

/-- When the context is already cancelled and the timer is already due as `Lock` enters its
`select`, both outcomes occur: the branch that `select` picks decides. -/
theorem Lock_both_ready (m : Mutex) (now : Nat) (tc : Int) (pick : Bool)
    (hmu : m.mu = false) (htc : tc ≤ now) (hnext : m.next ≤ now) :
    (m.Lock now (some tc) pick).2
      = if pick then LockOutcome.cancelled now else LockOutcome.admitted now := by
  have hfire : (now : Int) + max 0 (m.next - now) = now := by
    rw [max_eq_left (by omega)]; simp
  simp only [Mutex.Lock, hmu, Bool.false_eq_true, if_false, hfire]
  have h1 : ¬ ((now : Int) < tc) := by omega
  have h2 : ¬ (tc < (now : Int) ∧ (now : Int) < (now : Int)) := by omega
  rw [if_neg h1, if_neg h2]
  cases pick <;> rfl

/-- C4 on the run of `TestMutex`: interval 1 s, three pairs; the admissions are at 5 ns,
1.00000001 s and 2.00000002 s. The second run has a context that is cancelled from the
start: its `Lock` at 7 ns on the fresh gate is admitted when `select` takes the timer. -/
theorem gate_spacing_witness :
    runRounds (Mutex.New 1000000000)
        [{ lockNow := 5, cancelAt := none, pick := false, unlockNow := 10 },
         { lockNow := 20, cancelAt := none, pick := false, unlockNow := 1000000020 },
         { lockNow := 1000000030, cancelAt := none, pick := false, unlockNow := 2000000040 }]
      = some ([5, 1000000010, 2000000020], { d := 1000000000, next := 3000000040, mu := false })
    ∧ ((10 : Nat) : Int) + 1000000000 ≤ 1000000010
    ∧ runRounds (Mutex.New 1000000000)
        [{ lockNow := 7, cancelAt := some 0, pick := false, unlockNow := 9 }]
      = some ([7], { d := 1000000000, next := 1000000009, mu := false })
    ∧ (Mutex.New 1000000000).Lock 7 (some 0) true
      = ({ d := 1000000000, next := 0, mu := true }, LockOutcome.cancelled 7)
    ∧ [(7 : Int)].head? = some (((7 : Nat) : Int)) :=
  ⟨by rfl,
   ((gate_spacing 1000000000
      [{ lockNow := 5, cancelAt := none, pick := false, unlockNow := 10 },
       { lockNow := 20, cancelAt := none, pick := false, unlockNow := 1000000020 },
       { lockNow := 1000000030, cancelAt := none, pick := false, unlockNow := 2000000040 }]).2
      [5, 1000000010, 2000000020] { d := 1000000000, next := 3000000040, mu := false }
      (by rfl)).2.2 0 { lockNow := 5, cancelAt := none, pick := false, unlockNow := 10 }
      1000000010 (by rfl) (by rfl),
   by rfl, by rfl,
   ((gate_spacing 1000000000
      [{ lockNow := 7, cancelAt := some 0, pick := false, unlockNow := 9 }]).2
      [7] { d := 1000000000, next := 1000000009, mu := false } (by rfl)).2.1
      { lockNow := 7, cancelAt := some 0, pick := false, unlockNow := 9 } [] rfl⟩

/-! ## Fingerprints -/

theorem getPayload_body (body : Bytes) :
    getPayload (some (Except.ok { data := body, fault := none })) = Except.ok (some (body.take 256)) := by
  unfold getPayload CopyN
  simp only
  split_ifs with h
  · rfl
  · simp only [Option.getD_none, if_true]
    rw [List.take_of_length_le (by omega)]

theorem take_replicate_append (n : Nat) (a : Nat) (l : Bytes) :
    (List.replicate n a ++ l).take n = List.replicate n a := by
  rw [List.take_append_eq_append_take]
  simp

/-- C5: `getPayload` returns nil without error when `GetBody` is nil, and otherwise exactly
the first `min 256 (len body)` bytes of the body; so for two requests with the same method
and URL whose bodies agree on their first 256 bytes, `NewFile` succeeds on both with the
same fingerprint and the same path, which is computed from method, URL and that part of
the body alone. -/
theorem NewFile_same_on_equal_first_256 (md5sum : Bytes → Bytes) (tx : Tx)
    (method url b1 b2 : Bytes) (h : b1.take 256 = b2.take 256) :
    getPayload none = Except.ok none
    ∧ getPayload (some (Except.ok { data := b1, fault := none })) = Except.ok (some (b1.take 256))
    ∧ (b1.take 256).length = min 256 b1.length
    ∧ ∃ f1 f2, tx.NewFile md5sum (requestWithBody method url b1) = Except.ok f1
        ∧ tx.NewFile md5sum (requestWithBody method url b2) = Except.ok f2
        ∧ f1.creq.ident md5sum = f2.creq.ident md5sum
        ∧ f1.pathname = f2.pathname
        ∧ f1.creq.ident md5sum = hexEncode (md5sum (method ++ url ++ b1.take 256))
        ∧ f1.pathname = pathJoin tx.dir (f1.creq.ident md5sum) := by
  refine ⟨rfl, getPayload_body b1, List.length_take _ _, ?_⟩
  refine ⟨{ creq := { Method := method, Url := url, Payload := some (b1.take 256) },
            pathname := pathJoin tx.dir (hexEncode (md5sum (method ++ url ++ b1.take 256))) },
          { creq := { Method := method, Url := url, Payload := some (b2.take 256) },
            pathname := pathJoin tx.dir (hexEncode (md5sum (method ++ url ++ b2.take 256))) },
          ?_, ?_, ?_, ?_, rfl, rfl⟩
  · simp [Tx.NewFile, newCreq, requestWithBody, getPayload_body, cReq.ident, cReq.identBuffer]
  · simp [Tx.NewFile, newCreq, requestWithBody, getPayload_body, cReq.ident, cReq.identBuffer]
  · simp [cReq.ident, cReq.identBuffer, h]
  · simp [h]

/-- C5 on two POST bodies of 257 bytes that differ only in their last byte. -/
theorem NewFile_same_on_equal_first_256_witness :
    (List.replicate 256 (97 : Nat) ++ [98]).take 256
        = (List.replicate 256 (97 : Nat) ++ [99]).take 256
    ∧ ∃ f1 f2,
        Tx.NewFile first16 (mkTx ["cache"] (5, "s"))
            (requestWithBody (ascii "POST") (ascii "http://h/a")
              (List.replicate 256 (97 : Nat) ++ [98])) = Except.ok f1
        ∧ Tx.NewFile first16 (mkTx ["cache"] (5, "s"))
            (requestWithBody (ascii "POST") (ascii "http://h/a")
              (List.replicate 256 (97 : Nat) ++ [99])) = Except.ok f2
        ∧ f1.pathname = f2.pathname :=
  ⟨by rw [take_replicate_append, take_replicate_append],
   by
    obtain ⟨_, _, _, f1, f2, h1, h2, _, h4, _⟩ :=
      NewFile_same_on_equal_first_256 first16 (mkTx ["cache"] (5, "s")) (ascii "POST")
        (ascii "http://h/a") (List.replicate 256 (97 : Nat) ++ [98])
        (List.replicate 256 (97 : Nat) ++ [99])
        (by rw [take_replicate_append, take_replicate_append])
    exact ⟨f1, f2, h1, h2, h4⟩⟩

/-! ## The fingerprint depends on the concatenation alone -/

theorem identBuffer_eq (cq : cReq) :
    cq.identBuffer = cq.Method ++ cq.Url ++ payloadBytes cq.Payload := by
  cases h : cq.Payload <;> simp [cReq.identBuffer, payloadBytes, h]

theorem NewFile_requestWithBody (md5sum : Bytes → Bytes) (tx : Tx) (method url body : Bytes) :
    tx.NewFile md5sum (requestWithBody method url body)
      = Except.ok { creq := { Method := method, Url := url, Payload := some (body.take 256) },
                    pathname := pathJoin tx.dir
                      (hexEncode (md5sum (method ++ url ++ body.take 256))) } := by
  simp [Tx.NewFile, newCreq, requestWithBody, getPayload_body, cReq.ident, cReq.identBuffer]

theorem NewFile_requestWithoutBody (md5sum : Bytes → Bytes) (tx : Tx) (method url : Bytes) :
    tx.NewFile md5sum (requestWithoutBody method url)
      = Except.ok { creq := { Method := method, Url := url, Payload := none },
                    pathname := pathJoin tx.dir (hexEncode (md5sum (method ++ url))) } := by
  simp [Tx.NewFile, newCreq, requestWithoutBody, getPayload, cReq.ident, cReq.identBuffer]

/-- C12: `ident` is the hex form of the digest of `method ++ url ++ payload`, a nil payload
adding nothing, so two `cReq` with the same concatenation have the same fingerprint
whatever the digest function is. The requests `POST http://h/a` with body `b` and
`POST http://h/ab` without `GetBody` differ in URL and payload, and `NewFile` gives them
the same fingerprint and the same path under every digest function. Conversely, with the
same method and URL, payloads of different bytes give different hashed buffers, as do
bodies that differ within their first 256 bytes. -/
theorem ident_of_concatenation :
    (∀ (md5sum : Bytes → Bytes) (cq : cReq),
        cq.ident md5sum = hexEncode (md5sum (cq.Method ++ cq.Url ++ payloadBytes cq.Payload)))
    ∧ (∀ (md5sum : Bytes → Bytes) (cq1 cq2 : cReq),
        cq1.Method ++ cq1.Url ++ payloadBytes cq1.Payload
          = cq2.Method ++ cq2.Url ++ payloadBytes cq2.Payload →
        cq1.ident md5sum = cq2.ident md5sum)
    ∧ (∀ (md5sum : Bytes → Bytes) (tx : Tx), ∃ f1 f2,
        tx.NewFile md5sum (requestWithBody (ascii "POST") (ascii "http://h/a") (ascii "b"))
          = Except.ok f1
        ∧ tx.NewFile md5sum (requestWithoutBody (ascii "POST") (ascii "http://h/ab"))
          = Except.ok f2
        ∧ f1.creq.Url ≠ f2.creq.Url ∧ f1.creq.Payload ≠ f2.creq.Payload
        ∧ f1.creq.Method = f2.creq.Method
        ∧ f1.creq.identBuffer = f2.creq.identBuffer
        ∧ f1.creq.ident md5sum = f2.creq.ident md5sum
        ∧ f1.pathname = f2.pathname)
    ∧ (∀ (method url : Bytes) (p1 p2 : Option Bytes), payloadBytes p1 ≠ payloadBytes p2 →
        ({ Method := method, Url := url, Payload := p1 } : cReq).identBuffer
          ≠ ({ Method := method, Url := url, Payload := p2 } : cReq).identBuffer)
    ∧ (∀ (md5sum : Bytes → Bytes) (tx : Tx) (method url b1 b2 : Bytes),
        b1.take 256 ≠ b2.take 256 → ∃ f1 f2,
          tx.NewFile md5sum (requestWithBody method url b1) = Except.ok f1
          ∧ tx.NewFile md5sum (requestWithBody method url b2) = Except.ok f2
          ∧ f1.creq.identBuffer ≠ f2.creq.identBuffer) := by
  refine ⟨?_, ?_, ?_, ?_, ?_⟩
  · intro md5sum cq
    rw [cReq.ident, identBuffer_eq]
  · intro md5sum cq1 cq2 h
    rw [cReq.ident, cReq.ident, identBuffer_eq, identBuffer_eq, h]
  · intro md5sum tx
    have hurl : ascii "http://h/a" ≠ ascii "http://h/ab" := by decide
    have hpl : some ((ascii "b").take 256) ≠ (none : Option Bytes) := by decide
    have hbuf : ({ Method := ascii "POST", Url := ascii "http://h/a",
                   Payload := some ((ascii "b").take 256) } : cReq).identBuffer
        = ({ Method := ascii "POST", Url := ascii "http://h/ab",
             Payload := none } : cReq).identBuffer := by decide
    refine ⟨_, _, NewFile_requestWithBody md5sum tx _ _ _,
      NewFile_requestWithoutBody md5sum tx _ _, hurl, hpl, rfl, hbuf, ?_, ?_⟩
    · have hb : ({ Method := ascii "POST", Url := ascii "http://h/a",
                   Payload := some ((ascii "b").take 256) } : cReq).identBuffer
          = ({ Method := ascii "POST", Url := ascii "http://h/ab",
               Payload := none } : cReq).identBuffer := by decide
      simp only [cReq.ident, hb]
    · have hb : ascii "POST" ++ ascii "http://h/a" ++ (ascii "b").take 256
          = ascii "POST" ++ ascii "http://h/ab" := by decide
      simp only [hb]
  · intro method url p1 p2 hne h
    rw [identBuffer_eq, identBuffer_eq] at h
    exact hne (List.append_cancel_left h)
  · intro md5sum tx method url b1 b2 hne
    refine ⟨_, _, NewFile_requestWithBody md5sum tx method url b1,
      NewFile_requestWithBody md5sum tx method url b2, ?_⟩
    intro h
    rw [identBuffer_eq, identBuffer_eq] at h
    exact hne (List.append_cancel_left h)

/-- C12 on concrete requests, with the first 16 bytes standing in for the digest: the two
requests of the example get the path `cache/5/504f5354687474703a2f2f682f6162`, and bodies
`b` and `c` under the same method and URL give different buffers. -/
theorem ident_of_concatenation_witness :
    Tx.NewFile first16 (mkTx ["cache"] (5, "s"))
        (requestWithBody (ascii "POST") (ascii "http://h/a") (ascii "b"))
      = Except.ok { creq := { Method := ascii "POST", Url := ascii "http://h/a",
                              Payload := some (ascii "b") },
                    pathname := ["cache", "5", "504f5354687474703a2f2f682f6162"] }
    ∧ Tx.NewFile first16 (mkTx ["cache"] (5, "s"))
        (requestWithoutBody (ascii "POST") (ascii "http://h/ab"))
      = Except.ok { creq := { Method := ascii "POST", Url := ascii "http://h/ab",
                              Payload := none },
                    pathname := ["cache", "5", "504f5354687474703a2f2f682f6162"] }
    ∧ ({ Method := ascii "POST", Url := ascii "http://h/a", Payload := some (ascii "b") }
          : cReq).identBuffer
        ≠ ({ Method := ascii "POST", Url := ascii "http://h/a", Payload := some (ascii "c") }
          : cReq).identBuffer :=
  ⟨by rfl, by rfl,
   ident_of_concatenation.2.2.2.1 (ascii "POST") (ascii "http://h/a") (some (ascii "b"))
    (some (ascii "c")) (by decide)⟩

/-! ## `ScanCsv` visits every row, then calls `Done` -/

theorem scanLoop_traced {σ : Type} (rower : ReadCsvRower σ) :
    ∀ (rows : List (List String)) (i : Int) (s : σ) (log : List Call),
      rowsAccepted rower rows i s →
      scanLoop (traced rower) (rows.map Except.ok) i (s, log)
        = (((rower.Done (feedRows rower rows i s)).1, log ++ rowCalls rows i ++ [Call.done]),
           (rower.Done (feedRows rower rows i s)).2) := by
  intro rows
  induction rows with
  | nil => intro i s log _; simp [scanLoop, traced, feedRows, rowCalls]
  | cons row rest ih =>
    intro i s log hacc
    obtain ⟨h0, hacc2⟩ := hacc
    have hrest := ih (i + 1) (rower.ReadRow s i row).1 (log ++ [Call.readRow i row]) hacc2
    simp only [List.map_cons, scanLoop]
    have hstep : (traced rower).ReadRow (s, log) i row
        = (((rower.ReadRow s i row).1, log ++ [Call.readRow i row]), none) := by
      simp [traced, h0]
    rw [hstep]
    simp only [hrest, feedRows, rowCalls, List.append_assoc, List.singleton_append]

theorem scanLoop_accepted {σ : Type} (rower : ReadCsvRower σ) :
    ∀ (rows : List (List String)) (i : Int) (s : σ), rowsAccepted rower rows i s →
      scanLoop rower (rows.map Except.ok) i s = rower.Done (feedRows rower rows i s) := by
  intro rows
  induction rows with
  | nil => intro i s _; simp [scanLoop, feedRows]
  | cons row rest ih =>
    intro i s hacc
    obtain ⟨h0, hacc2⟩ := hacc
    have hpair : rower.ReadRow s i row = ((rower.ReadRow s i row).1, none) := by
      rw [← h0]
    simp only [List.map_cons, scanLoop, feedRows]
    rw [hpair]
    exact ih (i + 1) (rower.ReadRow s i row).1 hacc2

theorem rowCalls_get : ∀ (rows : List (List String)) (i : Int) (k : Nat) (row : List String),
    rows.get? k = some row → (rowCalls rows i).get? k = some (Call.readRow (i + k) row) := by
  intro rows
  induction rows with
  | nil => intro i k row h; simp at h
  | cons r rest ih =>
    intro i k row h
    cases k with
    | zero =>
      simp only [List.get?_cons_zero, Option.some.injEq] at h
      subst h
      simp [rowCalls]
    | succ j =>
      simp only [List.get?_cons_succ] at h
      have := ih (i + 1) j row h
      simp only [rowCalls, List.get?_cons_succ, this]
      congr 2
      push_cast
      ring

theorem rowCalls_length : ∀ (rows : List (List String)) (i : Int),
    (rowCalls rows i).length = rows.length := by
  intro rows
  induction rows with
  | nil => intro i; rfl
  | cons r rest ih => intro i; simp [rowCalls, ih]

/-- C10: when the input parses into the rows `r_0 .. r_(n-1)` and `ReadRow` returns nil on
each of them in the run, `ScanCsv` makes exactly `n + 1` calls on the rower: `ReadRow(k, r_k)`
as its `k`-th call for `k = 0 .. n-1`, then `Done`; and it returns what `Done` returns. -/
theorem ScanCsv_rows_then_done {σ : Type} (rower : ReadCsvRower σ) (rows : List (List String))
    (s : σ) (hacc : rowsAccepted rower rows 0 s) :
    (ScanCsv (rows.map Except.ok) (traced rower) (s, [])).1.2 = rowCalls rows 0 ++ [Call.done]
    ∧ (ScanCsv (rows.map Except.ok) (traced rower) (s, [])).1.2.length = rows.length + 1
    ∧ (∀ (k : Nat) (row : List String), rows.get? k = some row →
        (ScanCsv (rows.map Except.ok) (traced rower) (s, [])).1.2.get? k
          = some (Call.readRow k row))
    ∧ (ScanCsv (rows.map Except.ok) (traced rower) (s, [])).1.2.get? rows.length = some Call.done
    ∧ (ScanCsv (rows.map Except.ok) (traced rower) (s, [])).2
        = (rower.Done (feedRows rower rows 0 s)).2
    ∧ (ScanCsv (rows.map Except.ok) rower s).2 = (rower.Done (feedRows rower rows 0 s)).2 := by
  have htr := scanLoop_traced rower rows 0 s [] hacc
  have hlog : (ScanCsv (rows.map Except.ok) (traced rower) (s, [])).1.2
      = rowCalls rows 0 ++ [Call.done] := by
    simp [ScanCsv, htr]
  refine ⟨hlog, ?_, ?_, ?_, ?_, ?_⟩
  · rw [hlog]; simp [rowCalls_length]
  · intro k row hk
    rw [hlog]
    have hlt : k < (rowCalls rows 0).length := by
      rw [rowCalls_length]; exact List.get?_eq_some.mp hk |>.1
    rw [List.get?_append hlt, rowCalls_get rows 0 k row hk]
    simp
  · rw [hlog]
    have : rows.length = (rowCalls rows 0).length := (rowCalls_length rows 0).symm
    rw [this, List.get?_append_right (le_refl _)]
    simp
  · simp [ScanCsv, htr]
  · rw [ScanCsv, scanLoop_accepted rower rows 0 s hacc]

/-- C10 on the four rows of the UTF-8 test: with the rower of the test, four row events,
then `done`, and a nil result; and with a rower that would return `SkipAll` at row 7, which
accepts the four rows of this run, the calls `ReadRow(0..3)` and then `Done`. -/
theorem ScanCsv_rows_then_done_witness :
    ScanCsv (utf8Rows.map Except.ok) tReadCsvRower []
      = (["len: 15, ﾐﾔｷﾞｹﾝ", "len: 15, ﾐﾔｷﾞｹﾝ", "len: 15, ﾅｶﾞﾉｹﾝ", "len: 15, ﾔﾏｸﾞﾁｹﾝ",
          "done"], none)
    ∧ (ScanCsv (utf8Rows.map Except.ok) (traced tReadCsvRower) ([], [])).1.2
      = rowCalls utf8Rows 0 ++ [Call.done]
    ∧ (stopAtRower 7 SkipAll).ReadRow [] 7 [] = (["len: 0, "], some SkipAll)
    ∧ (ScanCsv (utf8Rows.map Except.ok) (traced (stopAtRower 7 SkipAll)) ([], [])).1.2
      = rowCalls utf8Rows 0 ++ [Call.done] :=
  ⟨by rfl,
   (ScanCsv_rows_then_done tReadCsvRower utf8Rows [] ⟨rfl, rfl, rfl, rfl, trivial⟩).1,
   by rfl,
   (ScanCsv_rows_then_done (stopAtRower 7 SkipAll) utf8Rows []
      ⟨by rfl, by rfl, by rfl, by rfl, trivial⟩).1⟩

/-! ## `ScanCsv` stops at the first error of `ReadRow` -/

theorem done_not_mem_rowCalls : ∀ (rows : List (List String)) (i : Int),
    Call.done ∉ rowCalls rows i := by
  intro rows
  induction rows with
  | nil => intro i; simp [rowCalls]
  | cons r rest ih =>
    intro i h
    simp only [rowCalls, List.mem_cons] at h
    rcases h with h | h
    · exact Call.noConfusion h
    · exact ih (i + 1) h

theorem scanLoop_traced_stop {σ : Type} (rower : ReadCsvRower σ) (row : List String)
    (rest : List (Except Err (List String))) (e : Err) :
    ∀ (pre : List (List String)) (i : Int) (s : σ) (log : List Call),
      rowsAccepted rower pre i s →
      (rower.ReadRow (feedRows rower pre i s) (i + pre.length) row).2 = some e →
      scanLoop (traced rower) (pre.map Except.ok ++ Except.ok row :: rest) i (s, log)
        = (((rower.ReadRow (feedRows rower pre i s) (i + pre.length) row).1,
            log ++ rowCalls pre i ++ [Call.readRow (i + pre.length) row]),
           if e = SkipAll then none else some e) := by
  intro pre
  induction pre with
  | nil =>
    intro i s log _ hk
    simp only [feedRows, List.length_nil, Nat.cast_zero, add_zero] at hk
    have hstep : (traced rower).ReadRow (s, log) i row
        = (((rower.ReadRow s i row).1, log ++ [Call.readRow i row]), some e) := by
      simp [traced, hk]
    simp only [List.map_nil, List.nil_append, scanLoop, hstep, feedRows, rowCalls,
      List.append_nil, List.length_nil, Nat.cast_zero, add_zero]
    split_ifs <;> rfl
  | cons r pre ih =>
    intro i s log hacc hk
    obtain ⟨h0, hacc2⟩ := hacc
    have hidx : i + ((r :: pre).length : Nat) = i + 1 + (pre.length : Nat) := by
      simp only [List.length_cons]; push_cast; ring
    rw [hidx] at hk ⊢
    simp only [feedRows] at hk ⊢
    have hrest := ih (i + 1) (rower.ReadRow s i r).1 (log ++ [Call.readRow i r]) hacc2 hk
    have hstep : (traced rower).ReadRow (s, log) i r
        = (((rower.ReadRow s i r).1, log ++ [Call.readRow i r]), none) := by
      simp [traced, h0]
    simp only [List.map_cons, List.cons_append, scanLoop, hstep]
    refine Eq.trans hrest ?_
    simp only [rowCalls, List.append_assoc, List.singleton_append]

theorem scanLoop_stop {σ : Type} (rower : ReadCsvRower σ) (row : List String)
    (rest : List (Except Err (List String))) (e : Err) :
    ∀ (pre : List (List String)) (i : Int) (s : σ),
      rowsAccepted rower pre i s →
      (rower.ReadRow (feedRows rower pre i s) (i + pre.length) row).2 = some e →
      scanLoop rower (pre.map Except.ok ++ Except.ok row :: rest) i s
        = ((rower.ReadRow (feedRows rower pre i s) (i + pre.length) row).1,
           if e = SkipAll then none else some e) := by
  intro pre
  induction pre with
  | nil =>
    intro i s _ hk
    simp only [feedRows, List.length_nil, Nat.cast_zero, add_zero] at hk ⊢
    have hpair : rower.ReadRow s i row = ((rower.ReadRow s i row).1, some e) := by
      rw [← hk]
    simp only [List.map_nil, List.nil_append, scanLoop]
    rw [hpair]
    simp only
    split_ifs <;> rfl
  | cons r pre ih =>
    intro i s hacc hk
    obtain ⟨h0, hacc2⟩ := hacc
    have hidx : i + ((r :: pre).length : Nat) = i + 1 + (pre.length : Nat) := by
      simp only [List.length_cons]; push_cast; ring
    rw [hidx] at hk ⊢
    simp only [feedRows] at hk ⊢
    have hrest := ih (i + 1) (rower.ReadRow s i r).1 hacc2 hk
    have hpair : rower.ReadRow s i r = ((rower.ReadRow s i r).1, none) := by
      rw [← h0]
    simp only [List.map_cons, List.cons_append, scanLoop]
    rw [hpair]
    simp only
    exact hrest

/-- C11: when `ReadRow` returns nil on the rows before row `k` and a non-nil error `e` at
row `k`, whatever follows in the input, `ScanCsv` has made exactly the calls
`ReadRow(0, r_0) .. ReadRow(k, r_k)` on the rower, none for a later row and no `Done`; it
returns nil when `e` is `SkipAll` and `e` itself otherwise. -/
theorem ScanCsv_stops_at_ReadRow_error {σ : Type} (rower : ReadCsvRower σ)
    (pre : List (List String)) (row : List String) (rest : List (Except Err (List String)))
    (s : σ) (e : Err) (hpre : rowsAccepted rower pre 0 s)
    (hk : (rower.ReadRow (feedRows rower pre 0 s) pre.length row).2 = some e) :
    (ScanCsv (pre.map Except.ok ++ Except.ok row :: rest) (traced rower) (s, [])).1.2
        = rowCalls pre 0 ++ [Call.readRow pre.length row]
    ∧ (ScanCsv (pre.map Except.ok ++ Except.ok row :: rest) (traced rower) (s, [])).1.2.length
        = pre.length + 1
    ∧ Call.done ∉
        (ScanCsv (pre.map Except.ok ++ Except.ok row :: rest) (traced rower) (s, [])).1.2
    ∧ (e = SkipAll →
        (ScanCsv (pre.map Except.ok ++ Except.ok row :: rest) rower s).2 = none
        ∧ (ScanCsv (pre.map Except.ok ++ Except.ok row :: rest) (traced rower) (s, [])).2
            = none)
    ∧ (e ≠ SkipAll →
        (ScanCsv (pre.map Except.ok ++ Except.ok row :: rest) rower s).2 = some e
        ∧ (ScanCsv (pre.map Except.ok ++ Except.ok row :: rest) (traced rower) (s, [])).2
            = some e)
    ∧ (ScanCsv (pre.map Except.ok ++ Except.ok row :: rest) rower s).1
        = (rower.ReadRow (feedRows rower pre 0 s) pre.length row).1 := by
  have hk0 : (rower.ReadRow (feedRows rower pre 0 s) (0 + (pre.length : Nat)) row).2 = some e := by
    rw [zero_add]; exact hk
  have htr := scanLoop_traced_stop rower row rest e pre 0 s [] hpre hk0
  have hun := scanLoop_stop rower row rest e pre 0 s hpre hk0
  rw [zero_add] at htr hun
  have hlog : (ScanCsv (pre.map Except.ok ++ Except.ok row :: rest) (traced rower) (s, [])).1.2
      = rowCalls pre 0 ++ [Call.readRow pre.length row] := by
    simp [ScanCsv, htr]
  refine ⟨hlog, ?_, ?_, ?_, ?_, ?_⟩
  · rw [hlog]; simp [rowCalls_length]
  · rw [hlog]
    intro h
    rcases List.mem_append.mp h with h | h
    · exact done_not_mem_rowCalls pre 0 h
    · simp at h
  · intro he
    simp [ScanCsv, htr, hun, he]
  · intro he
    simp [ScanCsv, htr, hun, he]
  · simp [ScanCsv, hun]

/-- C11 on the four rows of the UTF-8 test with a rower that stops at row 1: with `SkipAll`
the result is nil, with another error it is that error; in both runs the events are those
of rows 0 and 1 and `done` is not among them. -/
theorem ScanCsv_stops_at_ReadRow_error_witness :
    ScanCsv (utf8Rows.map Except.ok) (stopAtRower 1 SkipAll) []
      = (["len: 15, ﾐﾔｷﾞｹﾝ", "len: 15, ﾐﾔｷﾞｹﾝ"], none)
    ∧ ScanCsv (utf8Rows.map Except.ok) (stopAtRower 1 (Err.other "stop")) []
      = (["len: 15, ﾐﾔｷﾞｹﾝ", "len: 15, ﾐﾔｷﾞｹﾝ"], some (Err.other "stop"))
    ∧ (ScanCsv ((utf8Rows.take 1).map Except.ok
          ++ Except.ok (utf8Rows.getD 1 []) :: (utf8Rows.drop 2).map Except.ok)
        (traced (stopAtRower 1 SkipAll)) ([], [])).1.2
      = rowCalls (utf8Rows.take 1) 0 ++ [Call.readRow 1 (utf8Rows.getD 1 [])] :=
  ⟨by rfl, by rfl,
   (ScanCsv_stops_at_ReadRow_error (stopAtRower 1 SkipAll) (utf8Rows.take 1)
      (utf8Rows.getD 1 []) ((utf8Rows.drop 2).map Except.ok) [] SkipAll
      ⟨rfl, trivial⟩ rfl).1⟩

/-! ## JSON strings are read back coerced to valid UTF-8 -/

theorem wf2_shape {s : Bytes} (h : wf2 s = true) : ∃ b0 b1 t, s = b0 :: b1 :: t := by
  rcases s with _ | ⟨b0, _ | ⟨b1, t⟩⟩
  · simp [wf2] at h
  · simp [wf2] at h
  · exact ⟨b0, b1, t, rfl⟩

theorem wf3_shape {s : Bytes} (h : wf3 s = true) : ∃ b0 b1 b2 t, s = b0 :: b1 :: b2 :: t := by
  rcases s with _ | ⟨b0, _ | ⟨b1, _ | ⟨b2, t⟩⟩⟩
  · simp [wf3] at h
  · simp [wf3] at h
  · simp [wf3] at h
  · exact ⟨b0, b1, b2, t, rfl⟩

theorem wf4_shape {s : Bytes} (h : wf4 s = true) :
    ∃ b0 b1 b2 b3 t, s = b0 :: b1 :: b2 :: b3 :: t := by
  rcases s with _ | ⟨b0, _ | ⟨b1, _ | ⟨b2, _ | ⟨b3, t⟩⟩⟩⟩
  · simp [wf4] at h
  · simp [wf4] at h
  · simp [wf4] at h
  · simp [wf4] at h
  · exact ⟨b0, b1, b2, b3, t, rfl⟩

theorem runeLen_le_length (s : Bytes) : runeLen s ≤ s.length := by
  cases s with
  | nil => simp [runeLen]
  | cons b0 t =>
    simp only [runeLen]
    split_ifs with h1 h2 h3 h4
    · simp
    · obtain ⟨_, _, _, he⟩ := wf2_shape h2; rw [he]; simp
    · obtain ⟨_, _, _, _, he⟩ := wf3_shape h3; rw [he]; simp
    · obtain ⟨_, _, _, _, _, he⟩ := wf4_shape h4; rw [he]; simp
    · simp

theorem runeLen_take_append (s X : Bytes) (h : runeLen s ≠ 0) :
    runeLen (s.take (runeLen s) ++ X) = runeLen s := by
  cases s with
  | nil => simp [runeLen] at h
  | cons b0 t =>
    simp only [runeLen] at h ⊢
    split_ifs at h ⊢ with h1 h2 h3 h4
    · simp [runeLen, h1]
    · obtain ⟨c0, c1, t2, he⟩ := wf2_shape h2
      rw [he] at h2 ⊢
      simp only [List.cons.injEq] at he
      obtain ⟨rfl, _⟩ := he
      have : wf2 (b0 :: c1 :: X) = true := h2
      simp [runeLen, h1, this]
    · obtain ⟨c0, c1, c2, t2, he⟩ := wf3_shape h3
      rw [he] at h2 h3 ⊢
      simp only [List.cons.injEq] at he
      obtain ⟨rfl, _⟩ := he
      have e2 : wf2 (b0 :: c1 :: c2 :: X) = false := by
        have : wf2 (b0 :: c1 :: c2 :: X) = wf2 (b0 :: c1 :: c2 :: t2) := rfl
        rw [this]; simpa using h2
      have e3 : wf3 (b0 :: c1 :: c2 :: X) = true := h3
      simp [runeLen, h1, e2, e3]
    · obtain ⟨c0, c1, c2, c3, t2, he⟩ := wf4_shape h4
      rw [he] at h2 h3 h4 ⊢
      simp only [List.cons.injEq] at he
      obtain ⟨rfl, _⟩ := he
      have e2 : wf2 (b0 :: c1 :: c2 :: c3 :: X) = false := by
        have : wf2 (b0 :: c1 :: c2 :: c3 :: X) = wf2 (b0 :: c1 :: c2 :: c3 :: t2) := rfl
        rw [this]; simpa using h2
      have e3 : wf3 (b0 :: c1 :: c2 :: c3 :: X) = false := by
        have : wf3 (b0 :: c1 :: c2 :: c3 :: X) = wf3 (b0 :: c1 :: c2 :: c3 :: t2) := rfl
        rw [this]; simpa using h3
      have e4 : wf4 (b0 :: c1 :: c2 :: c3 :: X) = true := h4
      simp [runeLen, h1, e2, e3, e4]
    · exact absurd rfl h

theorem runeLen_ascii (b : Nat) (tl : Bytes) (h : b < 0x80) : runeLen (b :: tl) = 1 := by
  simp [runeLen, h]

theorem unquoteStep_escapeAscii (b : Nat) (X : Bytes) (hb : b < 0x80) (hs : htmlSafe b = false) :
    unquoteStep (escapeAscii b ++ X) = some ([b], X) := by
  interval_cases b <;> first | (exact absurd hs (by decide)) | rfl

theorem escapeAscii_head (b : Nat) : ∃ tl, escapeAscii b = 0x5C :: tl := by
  unfold escapeAscii
  split_ifs <;> exact ⟨_, rfl⟩

/-- What one turn of the writer produces is read back, by one turn of the reader, as what
the coercion makes of the same part of the source. -/
theorem unquoteStep_encStep (b : Nat) (tl X : Bytes) :
    unquoteStep ((encStep (b :: tl)).1 ++ X) = some ((coerceStep (b :: tl)).1, X)
    ∧ (encStep (b :: tl)).2 = (coerceStep (b :: tl)).2
    ∧ (∃ c e, (encStep (b :: tl)).1 = c :: e ∧ c ≠ 0x22)
    ∧ (encStep (b :: tl)).2.length < (b :: tl).length := by
  by_cases hb : b < 0x80
  · have hrl := runeLen_ascii b tl hb
    have hco : coerceStep (b :: tl) = ([b], tl) := by simp [coerceStep, hrl]
    cases hs : htmlSafe b with
    | true =>
      have hen : encStep (b :: tl) = ([b], tl) := by simp [encStep, hb, hs]
      rw [hen, hco]
      simp only [htmlSafe, Bool.and_eq_true, decide_eq_true_eq] at hs
      refine ⟨?_, rfl, ⟨b, [], rfl, by omega⟩, by simp⟩
      have h1 : ¬ b = 0x5C := by omega
      have h2 : ¬ b < 0x20 := by omega
      simp [unquoteStep, h1, h2, hb]
    | false =>
      have hen : encStep (b :: tl) = (escapeAscii b, tl) := by simp [encStep, hb, hs]
      rw [hen, hco]
      obtain ⟨e, he⟩ := escapeAscii_head b
      exact ⟨unquoteStep_escapeAscii b X hb hs, rfl, ⟨0x5C, e, he, by decide⟩, by simp⟩
  · by_cases h0 : runeLen (b :: tl) = 0
    · have hen : encStep (b :: tl) = ([0x5C, 0x75, 0x66, 0x66, 0x66, 0x64], tl) := by
        simp [encStep, hb, h0]
      have hco : coerceStep (b :: tl) = (runeErrorBytes, tl) := by simp [coerceStep, h0]
      rw [hen, hco]
      exact ⟨rfl, rfl, ⟨_, _, rfl, by decide⟩, by simp⟩
    · have hco : coerceStep (b :: tl)
          = ((b :: tl).take (runeLen (b :: tl)), (b :: tl).drop (runeLen (b :: tl))) := by
        simp [coerceStep, h0]
      have hpos : 0 < runeLen (b :: tl) := Nat.pos_of_ne_zero h0
      have hlen := runeLen_le_length (b :: tl)
      have hdrop : ((b :: tl).drop (runeLen (b :: tl))).length < (b :: tl).length := by
        rw [List.length_drop]; simp only [List.length_cons] at hlen ⊢; omega
      by_cases h28 : (b :: tl).take 3 = [0xE2, 0x80, 0xA8]
      · have h3 : runeLen (b :: tl) = 3 := by
          rcases tl with _ | ⟨b1, _ | ⟨b2, t⟩⟩ <;> simp at h28
          obtain ⟨rfl, rfl, rfl⟩ := h28
          rfl
        have hen : encStep (b :: tl) = ([0x5C, 0x75, 0x32, 0x30, 0x32, 0x38], (b :: tl).drop 3) := by
          rw [encStep, if_neg hb, if_neg h0, if_pos h28]
        rw [hen, hco, h3, h28]
        rw [h3] at hdrop
        exact ⟨rfl, rfl, ⟨_, _, rfl, by decide⟩, hdrop⟩
      · by_cases h29 : (b :: tl).take 3 = [0xE2, 0x80, 0xA9]
        · have h3 : runeLen (b :: tl) = 3 := by
            rcases tl with _ | ⟨b1, _ | ⟨b2, t⟩⟩ <;> simp at h29
            obtain ⟨rfl, rfl, rfl⟩ := h29
            rfl
          have hen : encStep (b :: tl)
              = ([0x5C, 0x75, 0x32, 0x30, 0x32, 0x39], (b :: tl).drop 3) := by
            rw [encStep, if_neg hb, if_neg h0, if_neg h28, if_pos h29]
          rw [hen, hco, h3, h29]
          rw [h3] at hdrop
          exact ⟨rfl, rfl, ⟨_, _, rfl, by decide⟩, hdrop⟩
        · have hen : encStep (b :: tl)
              = ((b :: tl).take (runeLen (b :: tl)), (b :: tl).drop (runeLen (b :: tl))) := by
            rw [encStep, if_neg hb, if_neg h0, if_neg h28, if_neg h29]
          rw [hen, hco]
          obtain ⟨m, hm⟩ : ∃ m, runeLen (b :: tl) = m + 1 := ⟨runeLen (b :: tl) - 1, by omega⟩
          have htk : (b :: tl).take (runeLen (b :: tl)) = b :: tl.take m := by rw [hm]; rfl
          refine ⟨?_, rfl, ⟨b, tl.take m, htk, by omega⟩, hdrop⟩
          have hrl := runeLen_take_append (b :: tl) X h0
          have hlt : ((b :: tl).take (runeLen (b :: tl))).length = runeLen (b :: tl) := by
            rw [List.length_take]; exact Nat.min_eq_left hlen
          rw [htk] at hrl hlt ⊢
          have h1 : ¬ b = 0x5C := by omega
          have h2 : ¬ b < 0x20 := by omega
          have hrl' : runeLen (b :: (tl.take m ++ X)) = runeLen (b :: tl) := hrl
          have hne : ¬ runeLen (b :: (tl.take m ++ X)) = 0 := by rw [hrl']; exact h0
          have hstep : unquoteStep (b :: (tl.take m ++ X))
              = some ((b :: (tl.take m ++ X)).take (runeLen (b :: (tl.take m ++ X))),
                      (b :: (tl.take m ++ X)).drop (runeLen (b :: (tl.take m ++ X)))) := by
            simp only [unquoteStep, if_neg h1, if_neg h2, if_neg hb, if_neg hne]
          have hrl2 : runeLen (b :: (tl.take m ++ X)) = (b :: tl.take m).length := by
            rw [hlt]; exact hrl'
          rw [List.cons_append, hstep, hrl2, ← List.cons_append, List.take_left, List.drop_left]

theorem unquoteLoop_encLoop : ∀ (fuel : Nat) (s : Bytes), s.length ≤ fuel →
    ∀ (fuel2 : Nat) (X : Bytes), (encLoop fuel s).length + 1 ≤ fuel2 →
    unquoteLoop fuel2 (encLoop fuel s ++ 0x22 :: X) = some (coerceLoop fuel s, X) := by
  intro fuel
  induction fuel with
  | zero =>
    intro s hs fuel2 X hf
    have : s = [] := List.length_eq_zero.mp (Nat.le_zero.mp hs)
    subst this
    obtain ⟨g, rfl⟩ : ∃ g, fuel2 = g + 1 := ⟨fuel2 - 1, by omega⟩
    simp [encLoop, coerceLoop, unquoteLoop]
  | succ f ih =>
    intro s hs fuel2 X hf
    obtain ⟨g, rfl⟩ : ∃ g, fuel2 = g + 1 := ⟨fuel2 - 1, by omega⟩
    cases s with
    | nil => simp [encLoop, coerceLoop, unquoteLoop]
    | cons b tl =>
      obtain ⟨hstep, hrest, ⟨c, e, hce, hc⟩, hlt⟩ :=
        unquoteStep_encStep b tl (encLoop f (encStep (b :: tl)).2 ++ 0x22 :: X)
      have hlen2 : (encStep (b :: tl)).2.length ≤ f := by
        simp only [List.length_cons] at hs hlt; omega
      have hg : (encLoop f (encStep (b :: tl)).2).length + 1 ≤ g := by
        simp only [encLoop, List.length_append, hce, List.length_cons] at hf; omega
      have hih := ih (encStep (b :: tl)).2 hlen2 g X hg
      simp only [encLoop, coerceLoop, List.append_assoc]
      rw [hce] at hstep ⊢
      generalize encLoop f (encStep (b :: tl)).2 ++ 0x22 :: X = Y at hstep hih ⊢
      have hgoal : unquoteLoop (g + 1) (c :: (e ++ Y))
          = some ((coerceStep (b :: tl)).1 ++ coerceLoop f (encStep (b :: tl)).2, X) := by
        rw [unquoteLoop, if_neg hc]
        have hstep2 : unquoteStep (c :: (e ++ Y)) = some ((coerceStep (b :: tl)).1, Y) := hstep
        rw [hstep2]
        simp only [hih]
      rw [← hrest]
      exact hgoal

/-- A string literal written by `appendString` is read back as the string coerced to
valid UTF-8, and the reader stops right after the closing quote. -/
theorem parseString_appendString (s X : Bytes) :
    parseString (appendString s ++ X) = some (coerceUTF8 s, X) := by
  simp only [appendString, parseString, List.cons_append, List.append_assoc, if_true,
    List.singleton_append]
  exact unquoteLoop_encLoop s.length s (le_refl _) _ X (by simp)

theorem coerceLoop_valid : ∀ (fuel : Nat) (s : Bytes), validLoop fuel s = true →
    coerceLoop fuel s = s := by
  intro fuel
  induction fuel with
  | zero => intro s h; simp [validLoop] at h; subst h; rfl
  | succ f ih =>
    intro s h
    cases s with
    | nil => rfl
    | cons b tl =>
      simp only [validLoop, Bool.and_eq_true, decide_eq_true_eq] at h
      obtain ⟨h0, hv⟩ := h
      simp only [coerceLoop, coerceStep, h0, if_false]
      rw [ih _ hv]
      exact List.take_append_drop _ _

/-- The coercion leaves a valid UTF-8 string as it is. -/
theorem coerceUTF8_valid (s : Bytes) (h : utf8Valid s = true) : coerceUTF8 s = s :=
  coerceLoop_valid s.length s h

/-! ## JSON integers and booleans are read back -/

theorem expectLit_append (lit X : Bytes) : expectLit lit (lit ++ X) = some X := by
  simp [expectLit, List.isPrefixOf_iff_prefix]

theorem decDigitsAux_acc (fuel : Nat) : ∀ n acc,
    decDigitsAux fuel n acc = decDigitsAux fuel n [] ++ acc := by
  induction fuel with
  | zero => intro n acc; simp [decDigitsAux]
  | succ f ih =>
    intro n acc
    simp only [decDigitsAux]
    split
    · simp
    · rw [ih (n / 10) ((48 + n % 10) :: acc), ih (n / 10) [48 + n % 10]]
      simp

theorem digitsValue_append (l : Bytes) (c : Nat) :
    digitsValue (l ++ [c]) = 10 * digitsValue l + (c - 48) := by
  simp [digitsValue, List.foldl_append]

theorem div_ten_eq_zero {n : Nat} (h : n / 10 = 0) : n < 10 := by
  rcases Nat.lt_or_ge n 10 with h1 | h1
  · exact h1
  · have := Nat.div_pos h1 (by norm_num : 0 < 10); omega

theorem decDigitsAux_spec (fuel : Nat) : ∀ n, n < 10 ^ fuel → 0 < fuel →
    digitsValue (decDigitsAux fuel n []) = n
    ∧ (∀ c ∈ decDigitsAux fuel n [], isDigit c = true)
    ∧ (0 < n → ∃ d tl, decDigitsAux fuel n [] = (48 + d) :: tl ∧ 0 < d) := by
  induction fuel with
  | zero => intro n _ h; omega
  | succ f ih =>
    intro n hn _
    simp only [decDigitsAux]
    split
    · rename_i h0
      have hlt := div_ten_eq_zero h0
      refine ⟨by simp [digitsValue, Nat.mod_eq_of_lt hlt], ?_, ?_⟩
      · intro c hc
        simp only [List.mem_singleton] at hc
        subst hc
        have := Nat.mod_lt n (by norm_num : 0 < 10)
        simp [isDigit]; omega
      · intro hpos
        exact ⟨n % 10, [], rfl, by rw [Nat.mod_eq_of_lt hlt]; exact hpos⟩
    · rename_i h0
      have hf : 0 < f := by
        rcases Nat.eq_zero_or_pos f with h | h
        · subst h; simp at hn; omega
        · exact h
      have hlt : n / 10 < 10 ^ f := by
        rw [Nat.div_lt_iff_lt_mul (by norm_num)]; rw [pow_succ] at hn; exact hn
      obtain ⟨hv, hd, hh⟩ := ih (n / 10) hlt hf
      rw [decDigitsAux_acc]
      refine ⟨?_, ?_, ?_⟩
      · rw [digitsValue_append, hv]
        have := Nat.mod_lt n (by norm_num : 0 < 10)
        omega
      · intro c hc
        rcases List.mem_append.mp hc with hc | hc
        · exact hd c hc
        · simp only [List.mem_singleton] at hc
          subst hc
          have := Nat.mod_lt n (by norm_num : 0 < 10)
          simp [isDigit]; omega
      · intro _
        obtain ⟨d, tl, he, hdpos⟩ := hh (Nat.pos_of_ne_zero h0)
        exact ⟨d, tl ++ [48 + n % 10], by rw [he]; rfl, hdpos⟩

theorem lt_pow_succ_self10 (n : Nat) : n < 10 ^ (n + 1) :=
  lt_trans (Nat.lt_pow_self (by norm_num : 1 < 10) n)
    (Nat.pow_lt_pow_right (by norm_num) (by omega))

theorem takeDigits_append : ∀ (ds X : Bytes), (∀ c ∈ ds, isDigit c = true) → noDigitAhead X →
    takeDigits (ds ++ X) = (ds, X) := by
  intro ds
  induction ds with
  | nil =>
    intro X _ hX
    cases X with
    | nil => rfl
    | cons c tl => simp [takeDigits, hX c tl rfl]
  | cons d ds ih =>
    intro X hd hX
    have h1 : isDigit d = true := hd d (List.mem_cons_self _ _)
    have h2 := ih X (fun c hc => hd c (List.mem_cons_of_mem _ hc)) hX
    simp [takeDigits, h1, h2]

theorem parseNatLit_appendNat (n : Nat) (X : Bytes) (hX : noDigitAhead X) :
    parseNatLit (appendNat n ++ X) = some (n, X) := by
  obtain ⟨hv, hd, hh⟩ := decDigitsAux_spec (n + 1) n (lt_pow_succ_self10 n) (by omega)
  have htd := takeDigits_append (appendNat n) X hd hX
  unfold parseNatLit
  rw [htd]
  simp only
  rcases Nat.eq_zero_or_pos n with h0 | hpos
  · subst h0
    rfl
  · obtain ⟨d, tl, he, hdpos⟩ := hh hpos
    have he2 : appendNat n = (48 + d) :: tl := he
    have hv2 : digitsValue (appendNat n) = n := hv
    rw [hv2, he2]
    have : ¬ (48 + d = 48) := by omega
    simp [this]

/-- An integer written by `appendInt` is read back, when no digit follows it. -/
theorem parseInt_appendInt (x : Int) (X : Bytes) (hX : noDigitAhead X) :
    parseInt (appendInt x ++ X) = some (x, X) := by
  cases x with
  | ofNat n =>
    have h := parseNatLit_appendNat n X hX
    obtain ⟨_, _, hh⟩ := decDigitsAux_spec (n + 1) n (lt_pow_succ_self10 n) (by omega)
    have hd : ∀ c ∈ appendNat n, isDigit c = true :=
      (decDigitsAux_spec (n + 1) n (lt_pow_succ_self10 n) (by omega)).2.1
    simp only [appendInt]
    cases hap : appendNat n with
    | nil =>
      rw [hap] at h
      simp only [List.nil_append] at h ⊢
      cases X with
      | nil => simp [parseNatLit, takeDigits] at h
      | cons c tl =>
        have := hX c tl rfl
        simp [parseNatLit, takeDigits, this] at h
    | cons c tl =>
      have hc : isDigit c = true := hd c (by rw [hap]; exact List.mem_cons_self _ _)
      have hne : ¬ c = 0x2D := by
        simp only [isDigit, Bool.and_eq_true, decide_eq_true_eq] at hc; omega
      rw [hap] at h
      simp only [List.cons_append] at h ⊢
      simp only [parseInt, if_neg hne, h]
      rfl
  | negSucc n =>
    have h := parseNatLit_appendNat (n + 1) X hX
    simp only [appendInt, List.cons_append, parseInt, if_true, h]
    rfl

theorem parseBool_appendBool (b : Bool) (X : Bytes) :
    parseBool (appendBool b ++ X) = some (b, X) := by
  cases b with
  | true =>
    have := expectLit_append [0x74, 0x72, 0x75, 0x65] X
    simp only [appendBool, if_true, parseBool, this]
  | false =>
    have h1 : expectLit [0x74, 0x72, 0x75, 0x65] ([0x66, 0x61, 0x6C, 0x73, 0x65] ++ X) = none := by
      simp [expectLit]
    have h2 := expectLit_append [0x66, 0x61, 0x6C, 0x73, 0x65] X
    simp only [appendBool, Bool.false_eq_true, if_false, parseBool, h1, h2]

/-! ## Byte slices and string slices are read back -/

theorem b64Val_b64Char (i : Nat) (h : i < 64) : b64Val (b64Char i) = some i := by
  interval_cases i <;> rfl

theorem b64Char_ne_pad (i : Nat) : b64Char i ≠ 61 := by
  unfold b64Char
  split_ifs <;> omega

theorem b64Char_lt (i : Nat) : b64Char i < 0x80 := by
  unfold b64Char
  split_ifs <;> omega

theorem b64Quad_full (i0 i1 i2 i3 : Nat) (h0 : i0 < 64) (h1 : i1 < 64) (h2 : i2 < 64)
    (h3 : i3 < 64) :
    ∃ out, b64Quad (b64Char i0) (b64Char i1) (b64Char i2) (b64Char i3) = some (out, false) := by
  simp only [b64Quad, b64Val_b64Char _ h0, b64Val_b64Char _ h1, b64Val_b64Char _ h2,
    b64Val_b64Char _ h3, if_neg (b64Char_ne_pad i2), if_neg (b64Char_ne_pad i3)]
  exact ⟨_, rfl⟩

theorem b64Quad_pad1 (i0 i1 i2 : Nat) (h0 : i0 < 64) (h1 : i1 < 64) (h2 : i2 < 64) :
    ∃ out, b64Quad (b64Char i0) (b64Char i1) (b64Char i2) 61 = some (out, true) := by
  simp only [b64Quad, b64Val_b64Char _ h0, b64Val_b64Char _ h1, b64Val_b64Char _ h2,
    if_neg (b64Char_ne_pad i2), if_true]
  exact ⟨_, rfl⟩

theorem b64Quad_pad2 (i0 i1 : Nat) (h0 : i0 < 64) (h1 : i1 < 64) :
    ∃ out, b64Quad (b64Char i0) (b64Char i1) 61 61 = some (out, true) := by
  simp only [b64Quad, b64Val_b64Char _ h0, b64Val_b64Char _ h1, if_true]
  exact ⟨_, rfl⟩

/-- The base64 text that `json` writes for a byte slice is accepted by the decoder. -/
theorem b64Decode_b64Encode : ∀ p : Bytes, ∃ q, b64Decode (b64Encode p) = some q
  | [] => ⟨[], rfl⟩
  | [a] => by
    obtain ⟨out, h⟩ := b64Quad_pad2 (a / 4 % 64) (a % 4 * 16)
      (Nat.mod_lt _ (by norm_num)) (by omega)
    exact ⟨out, by simp [b64Encode, b64Decode, h]⟩
  | [a, b] => by
    obtain ⟨out, h⟩ := b64Quad_pad1 (a / 4 % 64) (a % 4 * 16 + b / 16 % 16) (b % 16 * 4)
      (Nat.mod_lt _ (by norm_num)) (by omega) (by omega)
    exact ⟨out, by simp [b64Encode, b64Decode, h]⟩
  | a :: b :: c :: tl => by
    obtain ⟨out, h⟩ := b64Quad_full (a / 4 % 64) (a % 4 * 16 + b / 16 % 16)
      (b % 16 * 4 + c / 64 % 4) (c % 64)
      (Nat.mod_lt _ (by norm_num)) (by omega) (by omega) (Nat.mod_lt _ (by norm_num))
    obtain ⟨q, hq⟩ := b64Decode_b64Encode tl
    exact ⟨out ++ q, by simp [b64Encode, b64Decode, h, hq]⟩

theorem b64Encode_ascii : ∀ p : Bytes, ∀ c ∈ b64Encode p, c < 0x80
  | [] => by simp [b64Encode]
  | [a] => by
    intro c hc
    simp only [b64Encode, List.mem_cons, List.mem_singleton, List.not_mem_nil, or_false] at hc
    rcases hc with h | h | h | h <;> subst h <;> first | exact b64Char_lt _ | norm_num
  | [a, b] => by
    intro c hc
    simp only [b64Encode, List.mem_cons, List.mem_singleton, List.not_mem_nil, or_false] at hc
    rcases hc with h | h | h | h <;> subst h <;> first | exact b64Char_lt _ | norm_num
  | a :: b :: c :: tl => by
    intro x hx
    simp only [b64Encode, List.mem_cons] at hx
    rcases hx with h | h | h | h | h
    · subst h; exact b64Char_lt _
    · subst h; exact b64Char_lt _
    · subst h; exact b64Char_lt _
    · subst h; exact b64Char_lt _
    · exact b64Encode_ascii tl x h

theorem validLoop_ascii : ∀ (fuel : Nat) (s : Bytes), s.length ≤ fuel → (∀ c ∈ s, c < 0x80) →
    validLoop fuel s = true := by
  intro fuel
  induction fuel with
  | zero =>
    intro s hs _
    have : s = [] := List.length_eq_zero.mp (Nat.le_zero.mp hs)
    simp [validLoop, this]
  | succ f ih =>
    intro s hs hc
    cases s with
    | nil => rfl
    | cons b tl =>
      have hb : b < 0x80 := hc b (List.mem_cons_self _ _)
      have hrl := runeLen_ascii b tl hb
      simp only [validLoop, hrl, List.drop_succ_cons, List.drop_zero, Bool.and_eq_true,
        decide_eq_true_eq]
      refine ⟨by norm_num, ih tl ?_ (fun c h => hc c (List.mem_cons_of_mem _ h))⟩
      simp only [List.length_cons] at hs; omega

theorem coerceUTF8_ascii (s : Bytes) (h : ∀ c ∈ s, c < 0x80) : coerceUTF8 s = s :=
  coerceUTF8_valid s (validLoop_ascii s.length s (le_refl _) h)

theorem expectLit_null_ne (c : Nat) (tl : Bytes) (h : c ≠ 0x6E) :
    expectLit nullLit (c :: tl) = none := by
  have h2 : ¬ 0x6E = c := fun e => h e.symm
  simp [expectLit, nullLit, List.isPrefixOf, h2]

theorem appendString_cons (s : Bytes) : ∃ tl, appendString s = 0x22 :: tl := ⟨_, rfl⟩

theorem parseByteSlice_appendByteSlice (p : Option Bytes) :
    ∃ q, ∀ X, parseByteSlice (appendByteSlice p ++ X) = some (q, X) := by
  cases p with
  | none => exact ⟨none, fun X => by simp [appendByteSlice, parseByteSlice, expectLit_append]⟩
  | some p =>
    obtain ⟨q, hq⟩ := b64Decode_b64Encode p
    refine ⟨some q, fun X => ?_⟩
    have hnull : expectLit nullLit (appendString (b64Encode p) ++ X) = none :=
      expectLit_null_ne _ _ (by decide)
    simp only [appendByteSlice, parseByteSlice, hnull, parseString_appendString,
      coerceUTF8_ascii _ (b64Encode_ascii p), hq]

theorem appendStrings_length : ∀ l : List Bytes, l.length ≤ (appendStrings l).length
  | [] => by simp [appendStrings]
  | [s] => by simp [appendStrings, appendString]
  | s :: t :: rest => by
    have := appendStrings_length (t :: rest)
    simp only [appendStrings, List.length_append, List.length_cons] at this ⊢
    omega

theorem parseStringsLoop_appendStrings : ∀ (l : List Bytes) (fuel : Nat) (X : Bytes),
    l ≠ [] → l.length ≤ fuel →
    parseStringsLoop fuel (appendStrings l ++ 0x5D :: X) = some (l.map coerceUTF8, X)
  | [], _, _, h, _ => absurd rfl h
  | [s], fuel, X, _, hf => by
    obtain ⟨g, rfl⟩ : ∃ g, fuel = g + 1 := ⟨fuel - 1, by simp at hf; omega⟩
    simp [appendStrings, parseStringsLoop, parseString_appendString]
  | s :: t :: rest, fuel, X, _, hf => by
    obtain ⟨g, rfl⟩ : ∃ g, fuel = g + 1 := ⟨fuel - 1, by simp at hf; omega⟩
    have ih := parseStringsLoop_appendStrings (t :: rest) g X (by simp)
      (by simp only [List.length_cons] at hf ⊢; omega)
    simp only [appendStrings, List.append_assoc, List.cons_append, parseStringsLoop,
      parseString_appendString, if_true, ih, List.map_cons]

/-- A string slice written by `json` is read back with each string coerced to valid
UTF-8. -/
theorem parseStringList_appendStringList (v : Option (List Bytes)) (X : Bytes) :
    parseStringList (appendStringList v ++ X) = some (v.map (List.map coerceUTF8), X) := by
  cases v with
  | none => simp [appendStringList, parseStringList, expectLit_append]
  | some l =>
    cases l with
    | nil =>
      have hnull : expectLit nullLit (0x5B :: 0x5D :: X) = none :=
        expectLit_null_ne _ _ (by decide)
      simp [appendStringList, appendStrings, parseStringList, hnull]
    | cons s rest =>
      have hne : s :: rest ≠ [] := by simp
      obtain ⟨d, tl, hd, hdq⟩ : ∃ d tl, appendStrings (s :: rest) = d :: tl ∧ d = 0x22 := by
        cases rest with
        | nil => exact ⟨_, _, rfl, rfl⟩
        | cons t r => exact ⟨_, _, rfl, rfl⟩
      have hlen := appendStrings_length (s :: rest)
      have hloop := parseStringsLoop_appendStrings (s :: rest)
        (d :: (tl ++ 0x5D :: X)).length X hne
        (by rw [hd] at hlen; simp only [List.length_cons, List.length_append] at hlen ⊢; omega)
      rw [hd] at hloop
      have hnull : expectLit nullLit (0x5B :: (d :: (tl ++ 0x5D :: X))) = none :=
        expectLit_null_ne _ _ (by decide)
      have hd5 : ¬ d = 0x5D := by rw [hdq]; decide
      simp only [appendStringList, hd, List.cons_append, List.append_assoc,
        List.singleton_append, List.nil_append]
      simp only [parseStringList, hnull, if_true, if_neg hd5]
      simp only [List.cons_append] at hloop
      rw [hloop]
      rfl

/-! ## Header maps are read back -/

theorem appendEntry_cons (e : Bytes × Option (List Bytes)) :
    ∃ tl, appendEntry e = 0x22 :: tl := ⟨_, rfl⟩

theorem appendEntries_length : ∀ l : List (Bytes × Option (List Bytes)),
    l.length ≤ (appendEntries l).length
  | [] => by simp [appendEntries]
  | [e] => by
    obtain ⟨tl, h⟩ := appendEntry_cons e
    simp [appendEntries, h]
  | e :: e2 :: rest => by
    have := appendEntries_length (e2 :: rest)
    simp only [appendEntries, List.length_append, List.length_cons] at this ⊢
    omega

theorem parseEntriesLoop_appendEntries : ∀ (l : List (Bytes × Option (List Bytes)))
    (fuel : Nat) (X : Bytes), l ≠ [] → l.length ≤ fuel →
    parseEntriesLoop fuel (appendEntries l ++ 0x7D :: X) = some (l.map coerceEntry, X)
  | [], _, _, h, _ => absurd rfl h
  | [e], fuel, X, _, hf => by
    obtain ⟨g, rfl⟩ : ∃ g, fuel = g + 1 := ⟨fuel - 1, by simp at hf; omega⟩
    simp only [appendEntries, appendEntry, List.append_assoc, List.cons_append,
      parseEntriesLoop, parseString_appendString, if_true, parseStringList_appendStringList]
    simp [coerceEntry]
  | e :: e2 :: rest, fuel, X, _, hf => by
    obtain ⟨g, rfl⟩ : ∃ g, fuel = g + 1 := ⟨fuel - 1, by simp at hf; omega⟩
    have ih := parseEntriesLoop_appendEntries (e2 :: rest) g X (by simp)
      (by simp only [List.length_cons] at hf ⊢; omega)
    simp only [appendEntries, appendEntry, List.append_assoc, List.cons_append,
      parseEntriesLoop, parseString_appendString, if_true, parseStringList_appendStringList]
    simp only [appendEntries, appendEntry, List.append_assoc, List.cons_append] at ih
    simp only [ih, List.map_cons, coerceEntry]

/-- A header written by `json` is read back as `reloadHeader` describes. -/
theorem parseHeader_appendHeader (h : HeaderMap) (X : Bytes) :
    parseHeader (appendHeader h ++ X) = some (reloadHeader h, X) := by
  cases h with
  | none => simp [appendHeader, parseHeader, expectLit_append, reloadHeader]
  | some m =>
    cases hs : sortEntries m with
    | nil =>
      have hnull : expectLit nullLit (0x7B :: 0x7D :: X) = none :=
        expectLit_null_ne _ _ (by decide)
      simp [appendHeader, hs, appendEntries, parseHeader, hnull, reloadHeader]
    | cons e rest =>
      have hne : e :: rest ≠ [] := by simp
      obtain ⟨d, tl, hd, hdq⟩ : ∃ d tl, appendEntries (e :: rest) = d :: tl ∧ d = 0x22 := by
        cases rest with
        | nil => exact ⟨_, _, rfl, rfl⟩
        | cons t r => exact ⟨_, _, rfl, rfl⟩
      have hlen := appendEntries_length (e :: rest)
      have hloop := parseEntriesLoop_appendEntries (e :: rest)
        (d :: (tl ++ 0x7D :: X)).length X hne
        (by rw [hd] at hlen; simp only [List.length_cons, List.length_append] at hlen ⊢; omega)
      rw [hd] at hloop
      have hnull : expectLit nullLit (0x7B :: (d :: (tl ++ 0x7D :: X))) = none :=
        expectLit_null_ne _ _ (by decide)
      have hd5 : ¬ d = 0x7D := by rw [hdq]; decide
      simp only [appendHeader, hs, hd, List.cons_append, List.append_assoc,
        List.singleton_append, List.nil_append]
      simp only [parseHeader, hnull, if_true, if_neg hd5]
      simp only [List.cons_append] at hloop
      rw [hloop]
      simp [reloadHeader, hs]

theorem foldl_mapInsert : ∀ (l acc : List (Bytes × Option (List Bytes))),
    ((acc ++ l).map Prod.fst).Nodup → l.foldl mapInsert acc = acc ++ l := by
  intro l
  induction l with
  | nil => intro acc _; simp
  | cons e rest ih =>
    intro acc hnd
    have hnot : acc.any (fun x => decide (x.1 = e.1)) = false := by
      rw [List.any_eq_false]
      intro x hx
      simp only [decide_eq_true_eq]
      intro hxe
      rw [List.map_append, List.nodup_append] at hnd
      exact hnd.2.2 (List.mem_map_of_mem Prod.fst hx) (hxe ▸ List.mem_map_of_mem Prod.fst
        (List.mem_cons_self e rest))
    have hstep : mapInsert acc e = acc ++ [e] := by simp [mapInsert, hnot]
    simp only [List.foldl_cons, hstep]
    rw [ih (acc ++ [e]) (by simpa using hnd)]
    simp

theorem sortEntries_perm (m : List (Bytes × Option (List Bytes))) : (sortEntries m).Perm m :=
  List.perm_insertionSort _ m

theorem coerceEntry_wellFormed (e : Bytes × Option (List Bytes)) (hk : utf8Valid e.1 = true)
    (hv : ∀ vs, e.2 = some vs → ∀ v ∈ vs, utf8Valid v = true) : coerceEntry e = e := by
  obtain ⟨k, v⟩ := e
  simp only [coerceEntry, coerceUTF8_valid k hk, Prod.mk.injEq, true_and]
  cases v with
  | none => rfl
  | some vs =>
    simp only [Option.map_some', Option.some.injEq]
    have := hv vs rfl
    rw [List.map_congr_left (g := id) (fun v hv2 => coerceUTF8_valid v (this v hv2))]
    simp

theorem headerWellFormed_some {m : List (Bytes × Option (List Bytes))}
    (hwf : headerWellFormed (some m) = true) :
    (m.map Prod.fst).Nodup
    ∧ ∀ e ∈ m, utf8Valid e.1 = true ∧ ∀ vs, e.2 = some vs → ∀ v ∈ vs, utf8Valid v = true := by
  simp only [headerWellFormed, Bool.and_eq_true, decide_eq_true_eq, List.all_eq_true] at hwf
  refine ⟨hwf.1, fun e he => ⟨(hwf.2 e he).1, ?_⟩⟩
  intro vs hvs v hv
  have := (hwf.2 e he).2
  rw [hvs] at this
  simp only [List.all_eq_true] at this
  exact this v hv

/-- A well-formed header is read back as its entries in key order. -/
theorem reloadHeader_wellFormed (h : HeaderMap) (hwf : headerWellFormed h = true) :
    reloadHeader h = h.map sortEntries := by
  cases h with
  | none => rfl
  | some m =>
    obtain ⟨hnd, hval⟩ := headerWellFormed_some hwf
    have hperm := sortEntries_perm m
    have hmap : (sortEntries m).map coerceEntry = sortEntries m := by
      rw [List.map_congr_left (g := id)]
      · simp
      · intro e he
        have hm : e ∈ m := hperm.mem_iff.mp he
        exact coerceEntry_wellFormed e (hval e hm).1 (hval e hm).2
    have hnd2 : ((sortEntries m).map Prod.fst).Nodup :=
      (List.Perm.nodup_iff (hperm.map Prod.fst)).mpr hnd
    simp only [reloadHeader, Option.map_some', hmap]
    rw [foldl_mapInsert _ [] (by simpa using hnd2)]
    simp

theorem find_key_perm {l1 l2 : List (Bytes × Option (List Bytes))} (hp : l1.Perm l2) (k : Bytes) :
    (l1.map Prod.fst).Nodup →
    l1.find? (fun e => decide (e.1 = k)) = l2.find? (fun e => decide (e.1 = k)) := by
  induction hp with
  | nil => intro _; rfl
  | cons x _ ih =>
    intro hnd
    simp only [List.map_cons, List.nodup_cons] at hnd
    simp only [List.find?_cons]
    split
    · rfl
    · exact ih hnd.2
  | swap x y l =>
    intro hnd
    simp only [List.map_cons, List.nodup_cons, List.mem_cons, not_or] at hnd
    simp only [List.find?_cons]
    by_cases hx : x.1 = k <;> by_cases hy : y.1 = k
    · exact absurd (hx.trans hy.symm).symm hnd.1.1
    · simp [hx, hy]
    · simp [hx, hy]
    · simp [hx, hy]
  | trans h1 _ ih1 ih2 =>
    intro hnd
    rw [ih1 hnd, ih2 ((List.Perm.nodup_iff (h1.map Prod.fst)).mp hnd)]

/-- Reading a well-formed header back gives the same values for every key. -/
theorem headerGet_reloadHeader (h : HeaderMap) (hwf : headerWellFormed h = true) (k : Bytes) :
    headerGet (reloadHeader h) k = headerGet h k := by
  rw [reloadHeader_wellFormed h hwf]
  cases h with
  | none => rfl
  | some m =>
    have hperm := sortEntries_perm m
    have hnd2 : ((sortEntries m).map Prod.fst).Nodup :=
      (List.Perm.nodup_iff (hperm.map Prod.fst)).mpr (headerWellFormed_some hwf).1
    simp only [Option.map_some', headerGet]
    rw [find_key_perm hperm k hnd2]

/-! ## `Store` followed by `Load` -/

theorem parseField_append {α : Type} (lit : Bytes) (parse : Bytes → Option (α × Bytes))
    (Y : Bytes) : parseField lit parse (lit ++ Y) = parse Y := by
  simp [parseField, expectLit_append]

theorem noDigitAhead_append (l Y : Bytes) (c : Nat) (tl : Bytes) (h : l = c :: tl)
    (hc : isDigit c = false) : noDigitAhead (l ++ Y) := by
  intro c2 tl2 h2
  rw [h] at h2
  simp only [List.cons_append, List.cons.injEq] at h2
  rw [← h2.1]; exact hc

theorem parseInt_appendInt_comma (x : Int) (l Y : Bytes) :
    parseInt (appendInt x ++ ((0x2C :: l) ++ Y)) = some (x, (0x2C :: l) ++ Y) :=
  parseInt_appendInt x _ (noDigitAhead_append _ Y 0x2C l rfl rfl)

theorem parseCReq_appendCReq (q : cReq) :
    ∃ pl, ∀ X, parseCReq (appendCReq q ++ X)
      = some ({ Method := coerceUTF8 q.Method, Url := coerceUTF8 q.Url, Payload := pl }, X) := by
  obtain ⟨pl, hpl⟩ := parseByteSlice_appendByteSlice q.Payload
  refine ⟨pl, fun X => ?_⟩
  simp only [appendCReq, List.append_assoc]
  simp only [parseCReq, parseField_append, parseString_appendString, hpl, expectLit_append]

theorem parseCRes_appendCRes (r : cRes) (X : Bytes) :
    parseCRes (appendCRes r ++ X) = some (reloadCRes r, X) := by
  simp only [appendCRes, List.append_assoc]
  simp only [parseCRes, parseField_append, parseString_appendString,
    parseInt_appendInt_comma,
    parseHeader_appendHeader, parseStringList_appendStringList, parseBool_appendBool,
    expectLit_append]
  rfl

theorem skipSpace_object (l Y : Bytes) (tl : Bytes) (h : l = 0x7B :: tl) :
    skipSpace (l ++ Y) = l ++ Y := by
  rw [h]; simp [skipSpace]

theorem skipSpace_newline_object (l Y : Bytes) (tl : Bytes) (h : l = 0x7B :: tl) :
    skipSpace ([0x0A] ++ (l ++ Y)) = l ++ Y := by
  rw [h]; simp [skipSpace]

theorem appendCReq_head (q : cReq) : ∃ tl, appendCReq q = 0x7B :: tl := by
  unfold appendCReq
  simp only [List.cons_append]
  exact ⟨_, rfl⟩

theorem appendCRes_head (r : cRes) : ∃ tl, appendCRes r = 0x7B :: tl := by
  unfold appendCRes
  simp only [List.cons_append]
  exact ⟨_, rfl⟩

/-- The framing of an entry file: two objects, each followed by the newline of `Encode`,
then the body. The second `Decode` ends right after the second object, so the offset plus
one is where the body starts. -/
theorem loadDescriptors_framing (A B body tlA tlB : Bytes) (q2 : cReq) (r2 : cRes)
    (hA : A = 0x7B :: tlA) (hB : B = 0x7B :: tlB)
    (hq : ∀ X, parseCReq (A ++ X) = some (q2, X))
    (hr : ∀ X, parseCRes (B ++ X) = some (r2, X)) :
    loadDescriptors (Encode A ++ Encode B ++ body)
      = some (q2, r2, (Encode A).length + (Encode B).length) := by
  have hcontent : Encode A ++ Encode B ++ body = A ++ ([0x0A] ++ (B ++ ([0x0A] ++ body))) := by
    simp [Encode, List.append_assoc]
  rw [hcontent]
  have h1 : Decoder.Decode parseCReq
      { input := A ++ ([0x0A] ++ (B ++ ([0x0A] ++ body))), scanp := 0 }
      = some (q2, { input := A ++ ([0x0A] ++ (B ++ ([0x0A] ++ body))), scanp := A.length }) := by
    simp only [Decoder.Decode, List.drop_zero]
    rw [skipSpace_object A _ tlA hA, hq]
    simp only [Option.some.injEq, Prod.mk.injEq, true_and, Decoder.mk.injEq]
    simp only [List.length_append]
    omega
  have h2 : Decoder.Decode parseCRes
      { input := A ++ ([0x0A] ++ (B ++ ([0x0A] ++ body))), scanp := A.length }
      = some (r2, { input := A ++ ([0x0A] ++ (B ++ ([0x0A] ++ body))),
                    scanp := A.length + 1 + B.length }) := by
    simp only [Decoder.Decode, List.drop_left]
    rw [skipSpace_newline_object B _ tlB hB, hr]
    simp only [Option.some.injEq, Prod.mk.injEq, true_and, Decoder.mk.injEq]
    simp only [List.length_append, List.length_cons, List.length_nil]
    omega
  simp only [loadDescriptors, h1, h2, Decoder.InputOffset, Encode, List.length_append,
    List.length_cons, List.length_nil, Option.some.injEq, Prod.mk.injEq, true_and]
  omega

/-- On the file that `Store` writes, the two `Decode` calls of `Load` succeed and the offset
passed to `Seek` is the offset of the first body byte. -/
theorem loadDescriptors_stored (q : cReq) (r : cRes) (body : Bytes) :
    ∃ pl, loadDescriptors (Encode (appendCReq q) ++ Encode (appendCRes r) ++ body)
      = some ({ Method := coerceUTF8 q.Method, Url := coerceUTF8 q.Url, Payload := pl },
              reloadCRes r,
              (Encode (appendCReq q)).length + (Encode (appendCRes r)).length) := by
  obtain ⟨pl, hq⟩ := parseCReq_appendCReq q
  obtain ⟨tlA, hA⟩ := appendCReq_head q
  obtain ⟨tlB, hB⟩ := appendCRes_head r
  exact ⟨pl, loadDescriptors_framing _ _ body tlA tlB _ _ hA hB hq
    (fun X => parseCRes_appendCRes r X)⟩

/-- After a successful `Store` of `resp`, `Load` on the same entry returns
`reloadResponse f resp`: the integers and the flag as stored, the strings coerced to valid
UTF-8, the header put back key by key, and as body the file from the first body byte on. -/
theorem Load_after_Store (ed ed2 : EntryDisk) (f : File) (resp : Response)
    (h : f.Store ed resp = (ed2, none)) :
    f.Load ed2 = Except.ok (reloadResponse f resp)
    ∧ ∃ pl, loadDescriptors
          (Encode (appendCReq f.creq) ++ Encode (appendCRes (newCres resp)) ++ resp.Body.data)
        = some ({ Method := coerceUTF8 f.creq.Method, Url := coerceUTF8 f.creq.Url,
                  Payload := pl }, reloadCRes (newCres resp), storeBodyOffset f resp)
      ∧ ed2.files f.pathname
        = some (Encode (appendCReq f.creq) ++ Encode (appendCRes (newCres resp))
            ++ resp.Body.data)
      ∧ (Encode (appendCReq f.creq) ++ Encode (appendCRes (newCres resp))
            ++ resp.Body.data).drop (storeBodyOffset f resp) = resp.Body.data := by
  obtain ⟨pl, hld⟩ := loadDescriptors_stored f.creq (newCres resp) resp.Body.data
  have hfile : ed2.files f.pathname
      = some (Encode (appendCReq f.creq) ++ Encode (appendCRes (newCres resp))
          ++ resp.Body.data) := by
    unfold File.Store at h
    split at h
    · simp at h
    · simp only [Prod.mk.injEq] at h
      rw [← h.1]
      simp
  have hdrop : (Encode (appendCReq f.creq) ++ Encode (appendCRes (newCres resp))
      ++ resp.Body.data).drop (storeBodyOffset f resp) = resp.Body.data := by
    have : storeBodyOffset f resp
        = (Encode (appendCReq f.creq) ++ Encode (appendCRes (newCres resp))).length := by
      simp [storeBodyOffset]
    rw [this, List.drop_left]
  refine ⟨?_, pl, hld, hfile, hdrop⟩
  have hoff : (Encode (appendCReq f.creq)).length + (Encode (appendCRes (newCres resp))).length
      = storeBodyOffset f resp := rfl
  simp only [File.Load, hfile, hld, hoff, hdrop]
  rfl

/-- C2 (as amended): for every entry and every response whose header keys are distinct and
whose header keys and values are valid UTF-8, a successful `Store` followed by `Load` on
the same entry returns the same status code, the same values for every header key, and a
body that reads exactly the stored bytes to its end; the offset `Load` seeks to, the
decoder's input offset after the second descriptor plus one, is the offset of the first
body byte written by `Store`. -/
theorem Store_Load_round_trip (ed : EntryDisk) (f : File) (resp : Response)
    (hwf : headerWellFormed resp.Header = true) : RoundTripExact ed f resp := by
  intro ed2 hstore
  obtain ⟨hload, pl, hld, hfile, hdrop⟩ := Load_after_Store ed ed2 f resp hstore
  refine ⟨reloadResponse f resp, _, _, _, hload, rfl, ?_, rfl, hfile, hld, hdrop⟩
  intro k
  exact headerGet_reloadHeader resp.Header hwf k

set_option maxRecDepth 100000 in
/-- C2 on the entry of `TestCache` with a header in UTF-8 and a body that starts with white
space and JSON: the body starts at offset 297 of the file and is read back as stored. -/
theorem Store_Load_round_trip_witness :
    headerWellFormed utf8Header = true
    ∧ (sampleFile.Store emptyEntryDisk (sampleResponse utf8Header jsonLikeBody)).2 = none
    ∧ storeBodyOffset sampleFile (sampleResponse utf8Header jsonLikeBody) = 297
    ∧ RoundTripExact emptyEntryDisk sampleFile (sampleResponse utf8Header jsonLikeBody) :=
  ⟨by rfl, by rfl, by decide,
   Store_Load_round_trip emptyEntryDisk sampleFile (sampleResponse utf8Header jsonLikeBody)
    (by rfl)⟩

/-- C2 as stated fails: a header value that is not valid UTF-8, here the single byte FF,
is written by `json` as the escape of U+FFFD, so `Load` returns the three bytes EF BF BD
for it. -/
theorem Store_Load_latin1_header_counterexample :
    ¬ RoundTripExact emptyEntryDisk sampleFile (sampleResponse latin1Header jsonLikeBody) := by
  intro h
  obtain ⟨resp2, _, _, _, hload, _, hhdr, _⟩ :=
    h (sampleFile.Store emptyEntryDisk (sampleResponse latin1Header jsonLikeBody)).1 rfl
  have hload2 := (Load_after_Store emptyEntryDisk
    (sampleFile.Store emptyEntryDisk (sampleResponse latin1Header jsonLikeBody)).1 sampleFile
    (sampleResponse latin1Header jsonLikeBody) rfl).1
  rw [hload2] at hload
  have hresp : resp2 = reloadResponse sampleFile (sampleResponse latin1Header jsonLikeBody) :=
    (Except.ok.inj hload).symm
  have hk := hhdr (ascii "X-Name")
  rw [hresp] at hk
  have hloaded : headerGet
      (reloadResponse sampleFile (sampleResponse latin1Header jsonLikeBody)).Header
      (ascii "X-Name") = some (some [[0xEF, 0xBF, 0xBD]]) := by rfl
  have hstored : headerGet (sampleResponse latin1Header jsonLikeBody).Header (ascii "X-Name")
      = some (some [[0xFF]]) := by rfl
  rw [hloaded, hstored] at hk
  exact absurd hk (by decide)

end Crawlb
